import Mathlib

/-!
Shallow embedding of `src/buddy.c`, a fixed-capacity buddy page allocator.

Modelling conventions:
* Pages are identified by their index (a `Nat`).  The C pool base pointer is
  irrelevant to behaviour, so pointers are modelled as byte offsets from the
  pool base (`Ptr.addr off`), with `Ptr.null` for the C `NULL` pointer
  (`NULL` lies outside the pool, so `get_page_index` maps it to `-1`).
* The C global state (`free_lists`, the in-page link words, `page_rank`,
  `total_pages`) is a `BuddyState`.  The link node that the C code overlays
  on the first bytes of each free page is `nodes i`; C pointers stored in
  those words are represented as `Option Nat` page indices.
* `page_rank` is the C `unsigned char page_rank[65536]` table, modelled as a
  total function `Nat → Nat`; an index `≥ 65536` corresponds to an
  out-of-bounds access in C.
* Machine integers are `Nat`/`Int`; `1 << (r-1)` is written `2^(r-1)`,
  `x ^ pib` (C xor) is `^^^`, `| 0x80` is `||| 128`, `& 0x7F` is `&&& 127`.
* The return codes `OK`, `-EINVAL`, `-ENOSPC` from `buddy.h` are abstracted
  as constructors of small result types.
* The C `while` loops over free lists have no intrinsic bound; they are
  modelled with an explicit fuel argument.  Every call site uses a fuel that
  dominates the number of iterations the C loop would execute (the scan over
  ranks is bounded by 17, the merge loop by 16, the init cursor advances at
  least one page per iteration, and list walks are given fuel 65537, one more
  than the page capacity).
-/

def MAXRANK : Nat := 16

def PAGE_SIZE : Nat := 4096

/-- Link words that `buddy.c` overlays on the first bytes of a free page:
`next`/`prev` pointers of the doubly-linked free list, as page indices. -/
structure Node where
  next : Option Nat
  prev : Option Nat
deriving DecidableEq, Repr

/-- The global mutable state of `buddy.c`. -/
structure BuddyState where
  free_lists : Nat → Option Nat
  nodes : Nat → Node
  page_rank : Nat → Nat
  total_pages : Nat

/-- Pointer argument of the public API: `NULL` or an offset (in bytes) from
the pool base `memory_start`. -/
inductive Ptr where
  | null : Ptr
  | addr (off : Int) : Ptr
deriving DecidableEq, Repr

/-- Result of `alloc_pages`: `ERR_PTR(-EINVAL)`, `ERR_PTR(-ENOSPC)`, or a
valid block pointer, reported as the starting page index. -/
inductive AllocResult where
  | einval : AllocResult
  | enospc : AllocResult
  | ok (page_idx : Nat) : AllocResult
deriving DecidableEq, Repr

/-- Result of `init_page`/`return_pages`: `OK` or `-EINVAL`. -/
inductive RetCode where
  | einval : RetCode
  | ok : RetCode
deriving DecidableEq, Repr

/-- Result of the query operations: `-EINVAL` or a non-negative value. -/
inductive QueryResult where
  | einval : QueryResult
  | ok (val : Nat) : QueryResult
deriving DecidableEq, Repr

/-- Pointwise function update (array store). -/
def upd {α : Type} (f : Nat → α) (i : Nat) (v : α) : Nat → α :=
  fun j => if j = i then v else f j

/-- The canonical address of page `i`: `pool_base + i * PAGE_SIZE`. -/
def pageAddr (i : Nat) : Ptr := Ptr.addr ((i : Int) * PAGE_SIZE)

/-- `get_page_index` (buddy.c lines 22-31): bounds- and alignment-check a
pointer and resolve it to a page index; `-1` on failure. -/
def get_page_index (s : BuddyState) : Ptr → Int
  | Ptr.null => -1
  | Ptr.addr off =>
    if off < 0 ∨ (s.total_pages * PAGE_SIZE : Int) ≤ off then -1
    else if off % (PAGE_SIZE : Int) ≠ 0 then -1
    else off / (PAGE_SIZE : Int)

/-- `get_buddy_index` (buddy.c lines 34-37): `page_idx ^ (1 << (rank-1))`. -/
def get_buddy_index (page_idx rank : Nat) : Nat :=
  page_idx ^^^ 2 ^ (rank - 1)

/-- `remove_from_free_list` (buddy.c lines 53-68).  The C code reads
`block->prev` and `block->next` from the page memory; each C statement is
replayed in order, re-reading the link words as the C code does. -/
def remove_from_free_list (s : BuddyState) (page_idx rank : Nat) : BuddyState :=
  let b := s.nodes page_idx
  let s1 :=
    match b.prev with
    | some p => { s with nodes := upd s.nodes p { s.nodes p with next := b.next } }
    | none => { s with free_lists := upd s.free_lists rank b.next }
  match (s1.nodes page_idx).next with
  | some nx =>
    { s1 with nodes := upd s1.nodes nx { s1.nodes nx with prev := (s1.nodes page_idx).prev } }
  | none => s1

/-- `add_to_free_list` (buddy.c lines 71-87): push at the head of `rank`'s
list and record the rank in the first page's metadata byte. -/
def add_to_free_list (s : BuddyState) (page_idx rank : Nat) : BuddyState :=
  let h := s.free_lists rank
  let s1 := { s with nodes := upd s.nodes page_idx { next := h, prev := none } }
  let s2 :=
    match h with
    | some hd => { s1 with nodes := upd s1.nodes hd { s1.nodes hd with prev := some page_idx } }
    | none => s1
  { s2 with
    free_lists := upd s2.free_lists rank (some page_idx),
    page_rank := upd s2.page_rank page_idx rank }

/-- The zeroing loop of `init_page`: `for (i = 0; i < pgcount; i++)
page_rank[i] = 0;`. -/
def zero_pr (pr : Nat → Nat) : Nat → (Nat → Nat)
  | 0 => pr
  | n + 1 => upd (zero_pr pr n) n 0

/-- The free-list clearing loop of `init_page`: `for (i = 0; i <= MAXRANK;
i++) free_lists[i] = NULL;` (`clear_fl fl 17`). -/
def clear_fl (fl : Nat → Option Nat) : Nat → (Nat → Option Nat)
  | 0 => fl
  | n + 1 => upd (clear_fl fl n) n none

/-- The inner scan of `init_page` (buddy.c lines 108-115): try ranks from
high to low, return the first rank whose block is aligned at `current` and
fits below `pgcount`; `0` if none.  `rank_scan current pgcount r` scans the
ranks `r, r-1, ..., 1`. -/
def rank_scan (current pgcount : Nat) : Nat → Nat
  | 0 => 0
  | r + 1 =>
    if current % 2 ^ r = 0 ∧ current + 2 ^ r ≤ pgcount then r + 1
    else rank_scan current pgcount r

/-- The `best_rank` chosen by `init_page` at cursor `current`. -/
def best_rank (current pgcount : Nat) : Nat :=
  rank_scan current pgcount MAXRANK

/-- The cursor loop of `init_page` (buddy.c lines 104-123).  The cursor
advances by at least one page per iteration, so fuel `pgcount` (as passed by
`init_page`) never truncates the loop. -/
def init_loop (pgcount : Nat) : BuddyState → Nat → Nat → BuddyState
  | s, _, 0 => s
  | s, current, fuel + 1 =>
    if current < pgcount then
      let br := best_rank current pgcount
      if 0 < br then
        init_loop pgcount (add_to_free_list s current br) (current + 2 ^ (br - 1)) fuel
      else
        init_loop pgcount s (current + 1) fuel
    else s

/-- `init_page` (buddy.c lines 89-126).  The pool base pointer only fixes the
address arithmetic and is dropped; the prior global state is the `s`
argument.  Note the C code zeroes only `page_rank[0..pgcount)` and performs
no capacity check against the 65536-entry table. -/
def init_page (s : BuddyState) (pgcount : Nat) : RetCode × BuddyState :=
  let s0 : BuddyState :=
    { free_lists := clear_fl s.free_lists (MAXRANK + 1)
      nodes := s.nodes
      page_rank := zero_pr s.page_rank pgcount
      total_pages := pgcount }
  (RetCode.ok, init_loop pgcount s0 0 pgcount)

/-- The search loop of `alloc_pages` (buddy.c lines 134-140): scan ranks
`r..MAXRANK` for the first non-empty free list; returns the found rank and
the list head.  Fuel 17 covers the at most `17 - r` iterations. -/
def find_free_rank (s : BuddyState) : Nat → Nat → Option (Nat × Nat)
  | _, 0 => none
  | r, fuel + 1 =>
    if MAXRANK < r then none
    else
      match s.free_lists r with
      | some b => some (r, b)
      | none => find_free_rank s (r + 1) fuel

/-- The split loop of `alloc_pages` (buddy.c lines 153-157): while the found
rank exceeds the requested rank, decrement it and push the upper half onto
the decremented rank's free list.  Structural on the found rank. -/
def split_loop (s : BuddyState) (page_idx rank : Nat) : Nat → BuddyState
  | 0 => s
  | found + 1 =>
    if rank < found + 1 then
      split_loop (add_to_free_list s (page_idx + 2 ^ (found - 1)) found) page_idx rank found
    else s

/-- The marking loop of `alloc_pages` (buddy.c lines 160-163): set
`page_rank[page_idx + i] = rank | ALLOCATED_BIT` for `i < n`. -/
def mark_loop (pr : Nat → Nat) (page_idx rank : Nat) : Nat → (Nat → Nat)
  | 0 => pr
  | i + 1 => upd (mark_loop pr page_idx rank i) (page_idx + i) (rank ||| 128)

/-- The head pop of `alloc_pages` (buddy.c lines 146-148): `block =
free_lists[found_rank]; free_lists[found_rank] = block->next;`.  Note the C
code does not clear the new head's `prev` word, which keeps pointing at the
popped (now allocated) block. -/
def alloc_pop (s : BuddyState) (found block : Nat) : BuddyState :=
  { s with free_lists := upd s.free_lists found (s.nodes block).next }

/-- The metadata marking of `alloc_pages` (buddy.c lines 159-163) as a state
transformer: every page of the `2^(r-1)`-page block is marked
`r | ALLOCATED_BIT`. -/
def alloc_mark (s : BuddyState) (block r : Nat) : BuddyState :=
  { s with page_rank := mark_loop s.page_rank block r (2 ^ (r - 1)) }

/-- `alloc_pages` (buddy.c lines 128-166).  The rank parameter is a C `int`,
hence `Int`. -/
def alloc_pages (s : BuddyState) (rank : Int) : AllocResult × BuddyState :=
  if rank < 1 ∨ (MAXRANK : Int) < rank then (AllocResult.einval, s)
  else
    match find_free_rank s rank.toNat (MAXRANK + 1) with
    | none => (AllocResult.enospc, s)
    | some (found, block) =>
      (AllocResult.ok block,
        alloc_mark (split_loop (alloc_pop s found block) block rank.toNat found)
          block rank.toNat)

/-- The merge loop of `return_pages` (buddy.c lines 189-212): while the rank
is below `MAXRANK`, stop if the buddy is out of range or its metadata byte is
not exactly the free rank, otherwise unlink the buddy, move the block start
to the lower index, and go up one rank.  Returns the final state, block start
and rank.  The rank grows each iteration, so fuel `MAXRANK` suffices for any
starting rank `≥ 1`. -/
def merge_loop : BuddyState → Nat → Nat → Nat → BuddyState × Nat × Nat
  | s, page_idx, rank, 0 => (s, page_idx, rank)
  | s, page_idx, rank, fuel + 1 =>
    if rank < MAXRANK then
      if s.total_pages < get_buddy_index page_idx rank + 2 ^ (rank - 1) then
        (s, page_idx, rank)
      else if s.page_rank (get_buddy_index page_idx rank) ≠ rank then
        (s, page_idx, rank)
      else
        merge_loop (remove_from_free_list s (get_buddy_index page_idx rank) rank)
          (if get_buddy_index page_idx rank < page_idx then get_buddy_index page_idx rank
           else page_idx)
          (rank + 1) fuel
    else (s, page_idx, rank)

/-- The tail of `return_pages` after validation (buddy.c lines 188-215): run
the merge loop from the resolved page index and extracted rank, then insert
the merged block at the final rank (which rewrites only the merged block's
first page's metadata byte). -/
def return_finish (s : BuddyState) (page_idx rank : Nat) : BuddyState :=
  add_to_free_list (merge_loop s page_idx rank MAXRANK).1
    (merge_loop s page_idx rank MAXRANK).2.1
    (merge_loop s page_idx rank MAXRANK).2.2

/-- `return_pages` (buddy.c lines 168-218): validate the pointer (non-null,
in bounds, aligned), require the allocated bit, extract and range-check the
rank, then merge and reinsert. -/
def return_pages (s : BuddyState) (p : Ptr) : RetCode × BuddyState :=
  if p = Ptr.null then (RetCode.einval, s)
  else if get_page_index s p < 0 then (RetCode.einval, s)
  else if s.page_rank (get_page_index s p).toNat &&& 128 = 0 then (RetCode.einval, s)
  else if s.page_rank (get_page_index s p).toNat &&& 127 = 0 ∨
      MAXRANK < s.page_rank (get_page_index s p).toNat &&& 127 then (RetCode.einval, s)
  else
    (RetCode.ok,
      return_finish s (get_page_index s p).toNat
        (s.page_rank (get_page_index s p).toNat &&& 127))

/-- `query_ranks` (buddy.c lines 220-234): resolve the page, mask off the
allocated bit, and return the rank when it lies in `[1, MAXRANK]`. -/
def query_ranks (s : BuddyState) (p : Ptr) : QueryResult :=
  if get_page_index s p < 0 then QueryResult.einval
  else if 0 < s.page_rank (get_page_index s p).toNat &&& 127 ∧
      s.page_rank (get_page_index s p).toNat &&& 127 ≤ MAXRANK then
    QueryResult.ok (s.page_rank (get_page_index s p).toNat &&& 127)
  else QueryResult.einval

/-- The counting walk of `query_page_counts` (buddy.c lines 242-246),
following `next` links from a head pointer.  The C loop runs until `NULL`;
the fuel argument bounds the walk and is chosen at 65537 (one more than the
table capacity) at the call site, which dominates every terminating C walk
considered in this development. -/
def count_list (s : BuddyState) : Option Nat → Nat → Nat
  | _, 0 => 0
  | none, _ => 0
  | some idx, fuel + 1 => 1 + count_list s (s.nodes idx).next fuel

/-- `query_page_counts` (buddy.c lines 236-249). -/
def query_page_counts (s : BuddyState) (rank : Int) : QueryResult :=
  if rank < 1 ∨ (MAXRANK : Int) < rank then QueryResult.einval
  else QueryResult.ok (count_list s (s.free_lists rank.toNat) 65537)

/-- The walk of a free list as the list of page indices it visits, with
fuel, mirroring `count_list`. -/
def walk_list (s : BuddyState) : Option Nat → Nat → List Nat
  | _, 0 => []
  | none, _ => []
  | some idx, fuel + 1 => idx :: walk_list s (s.nodes idx).next fuel

/-- `ListAt s h l`: starting from head pointer `h`, following `next` links
visits exactly the pages `l` and then reaches `NULL`.  This is the fuel-free
description of a terminating free-list walk. -/
inductive ListAt (s : BuddyState) : Option Nat → List Nat → Prop where
  | nil : ListAt s none []
  | cons {a : Nat} {h : Option Nat} {l : List Nat} :
      (s.nodes a).next = h → ListAt s h l → ListAt s (some a) (a :: l)

/-- The pristine process state: in C all globals are zero-initialised
(`free_lists` all `NULL`, `page_rank` all zero, `total_pages` zero). -/
def blank : BuddyState :=
  { free_lists := fun _ => none
    nodes := fun _ => { next := none, prev := none }
    page_rank := fun _ => 0
    total_pages := 0 }

/-! ### Concrete operation traces

Each trace below replays a sequence of public API calls from the pristine
state, naming every intermediate state.  Every call in every trace succeeds
(the result conjuncts of the theorems record this), and every `return_pages`
call in the C1/C7/C8 traces targets a handle previously returned by
`alloc_pages` and not yet freed, i.e. the traces are sequences of valid
operations. -/

def c1_s0 : BuddyState := (init_page blank 8).2
def c1_s1 : BuddyState := (alloc_pages c1_s0 1).2
def c1_s2 : BuddyState := (alloc_pages c1_s1 1).2
def c1_s3 : BuddyState := (alloc_pages c1_s2 1).2
def c1_s4 : BuddyState := (return_pages c1_s3 (pageAddr 0)).2
def c1_s5 : BuddyState := (alloc_pages c1_s4 1).2
def c1_s6 : BuddyState := (return_pages c1_s5 (pageAddr 2)).2

/-- C1: refuting evaluation.  After the valid call sequence `init_page(8)`,
`alloc_pages(1)→page 0`, `alloc_pages(1)→page 1`, `alloc_pages(1)→page 2`,
`return_pages(page 0)`, `alloc_pages(1)→page 0`, `return_pages(page 2)` —
every call succeeding and every free targeting a live handle —
`query_page_counts(1)` returns `1`, yet the pool holds no free block of
rank 1: pages 0 and 1 are marked allocated (byte 129), the rank-2 free list
holds the block at page 2 covering pages 2–3, the rank-3 free list holds the
block at page 4 covering pages 4–7, and the single node counted by the
rank-1 walk is page 3 — an interior page of the free rank-2 block
(`2 < 3 < 2 + 2`).  The stale node is left behind because the head pop in
`alloc_pages` does not clear the new head's `prev` pointer, so the merge in
the last `return_pages` unlinks page 3 through a dangling `prev` and never
updates the rank-1 head pointer. -/
theorem c1_query_page_counts_miscounts :
    (alloc_pages c1_s0 1).1 = AllocResult.ok 0 ∧
    (alloc_pages c1_s1 1).1 = AllocResult.ok 1 ∧
    (alloc_pages c1_s2 1).1 = AllocResult.ok 2 ∧
    (return_pages c1_s3 (pageAddr 0)).1 = RetCode.ok ∧
    (alloc_pages c1_s4 1).1 = AllocResult.ok 0 ∧
    (return_pages c1_s5 (pageAddr 2)).1 = RetCode.ok ∧
    query_page_counts c1_s6 1 = QueryResult.ok 1 ∧
    walk_list c1_s6 (c1_s6.free_lists 1) 9 = [3] ∧
    walk_list c1_s6 (c1_s6.free_lists 2) 9 = [2] ∧
    walk_list c1_s6 (c1_s6.free_lists 3) 9 = [4] ∧
    c1_s6.page_rank 0 = 129 ∧ c1_s6.page_rank 1 = 129 ∧
    c1_s6.page_rank 2 = 2 ∧ c1_s6.page_rank 4 = 3 ∧
    c1_s6.total_pages = 8 ∧ 2 < 3 ∧ 3 < 2 + 2 ^ (2 - 1) := by
  decide

def c4_s0 : BuddyState := (init_page blank 2).2
def c4_s1 : BuddyState := (alloc_pages c4_s0 1).2
def c4_s2 : BuddyState := (alloc_pages c4_s1 1).2
def c4_s3 : BuddyState := (return_pages c4_s2 (pageAddr 0)).2
def c4_s4 : BuddyState := (return_pages c4_s3 (pageAddr 1)).2

/-- C4: refuting evaluation of the double-free clause.  On a 2-page pool,
allocate pages 0 and 1 at rank 1, free page 0, free page 1 (which merges with
the free buddy 0 into a rank-2 block whose metadata is rewritten only at
page 0, leaving page 1's byte at 129 = allocated), then call
`return_pages(page 1)` a second time with no intervening allocation: the
second call returns `OK` — not `-EINVAL` as the claim requires — and pushes a
rank-1 free block at page 1 that overlaps the free rank-2 block at page 0. -/
theorem c4_double_free_accepted :
    (alloc_pages c4_s0 1).1 = AllocResult.ok 0 ∧
    (alloc_pages c4_s1 1).1 = AllocResult.ok 1 ∧
    (return_pages c4_s2 (pageAddr 0)).1 = RetCode.ok ∧
    (return_pages c4_s3 (pageAddr 1)).1 = RetCode.ok ∧
    c4_s4.page_rank 1 = 129 ∧
    walk_list c4_s4 (c4_s4.free_lists 2) 3 = [0] ∧
    (return_pages c4_s4 (pageAddr 1)).1 = RetCode.ok ∧
    walk_list (return_pages c4_s4 (pageAddr 1)).2
      ((return_pages c4_s4 (pageAddr 1)).2.free_lists 1) 3 = [1] := by
  decide

def c5_s0 : BuddyState := (init_page blank 2).2
def c5_s1 : BuddyState := (alloc_pages c5_s0 2).2
def c5_s2 : BuddyState := (return_pages c5_s1 (pageAddr 1)).2

/-- C5: refuting evaluation.  On a 2-page pool, `alloc_pages(2)` returns the
rank-2 block at page 0 and marks both of its pages with byte 130 (allocated,
rank 2).  Calling `return_pages` on the page-aligned address of page 1 — an
interior page of that allocated block — is accepted (`OK`, not `-EINVAL`),
because the interior page's allocated bit is set and that is all the code
checks; the call then pushes a bogus rank-2 free block starting at the
interior page 1. -/
theorem c5_interior_free_accepted :
    (alloc_pages c5_s0 2).1 = AllocResult.ok 0 ∧
    c5_s1.page_rank 0 = 130 ∧ c5_s1.page_rank 1 = 130 ∧
    (return_pages c5_s1 (pageAddr 1)).1 = RetCode.ok ∧
    walk_list c5_s2 (c5_s2.free_lists 2) 3 = [1] ∧
    c5_s2.page_rank 1 = 2 := by
  decide

def c3c_s0 : BuddyState := (init_page blank 4).2
def c3c_s1 : BuddyState := (alloc_pages c3c_s0 1).2
def c3c_s2 : BuddyState := (alloc_pages c3c_s1 1).2
def c3c_s3 : BuddyState := (return_pages c3c_s2 (pageAddr 0)).2
def c3c_s4 : BuddyState := (return_pages c3c_s3 (pageAddr 1)).2

/-- C3: counterexample to the claim as stated.  On a 4-page pool the two
`alloc_pages(1)` calls return pages 0 and 1 — allocated rank-1 buddy blocks
(the two halves produced by the final split).  After `return_pages` on both,
the free lists do NOT contain a block of rank `r+1 = 2`: the merge cascades
further (the merged rank-2 block's buddy at page 2 is also free), leaving a
single rank-3 block at page 0 and an empty rank-2 list, so
`query_page_counts(2) = 0`. -/
theorem c3_counterexample :
    (alloc_pages c3c_s0 1).1 = AllocResult.ok 0 ∧
    (alloc_pages c3c_s1 1).1 = AllocResult.ok 1 ∧
    c3c_s2.page_rank 0 = 129 ∧ c3c_s2.page_rank 1 = 129 ∧
    get_buddy_index 0 1 = 1 ∧ (1 : Nat) < 16 ∧
    (return_pages c3c_s2 (pageAddr 0)).1 = RetCode.ok ∧
    (return_pages c3c_s3 (pageAddr 1)).1 = RetCode.ok ∧
    query_page_counts c3c_s4 2 = QueryResult.ok 0 ∧
    walk_list c3c_s4 (c3c_s4.free_lists 2) 5 = [] ∧
    walk_list c3c_s4 (c3c_s4.free_lists 1) 5 = [] ∧
    walk_list c3c_s4 (c3c_s4.free_lists 3) 5 = [0] ∧
    c3c_s4.page_rank 0 = 3 := by
  decide

def c7_s0 : BuddyState := (init_page blank 4).2
def c7_s1 : BuddyState := (alloc_pages c7_s0 1).2
def c7_s2 : BuddyState := (alloc_pages c7_s1 1).2
def c7_s3 : BuddyState := (alloc_pages c7_s2 1).2
def c7_s4 : BuddyState := (return_pages c7_s3 (pageAddr 0)).2
def c7_s5 : BuddyState := (alloc_pages c7_s4 1).2
def c7_s6 : BuddyState := (return_pages c7_s5 (pageAddr 2)).2
def c7_s7 : BuddyState := (alloc_pages c7_s6 1).2
def c7_s8 : BuddyState := (alloc_pages c7_s7 2).2
def c7_s9 : BuddyState := (return_pages c7_s8 (pageAddr 3)).2
def c7_sA : BuddyState := (alloc_pages c7_s9 1).2
def c7_sB : BuddyState := (return_pages c7_sA (pageAddr 3)).2

/-- C7: refuting evaluation.  The nine-call prefix (every call succeeding,
every free targeting a live handle) reaches a pool state whose free lists
are: rank 1 empty, rank 2 = `[3]`, all others empty.  From that reachable
state, `alloc_pages(1)` succeeds (returning page 3) and the immediate
`return_pages` of that handle yields free lists rank 1 = `[3, 4]`, rank 2
empty: the free-list state is not restored — the rank-2 block is gone, and
the round trip even pushed page 4, which lies outside the 4-page pool, onto
the rank-1 free list. -/
theorem c7_roundtrip_not_restored :
    (alloc_pages c7_s0 1).1 = AllocResult.ok 0 ∧
    (alloc_pages c7_s1 1).1 = AllocResult.ok 1 ∧
    (alloc_pages c7_s2 1).1 = AllocResult.ok 2 ∧
    (return_pages c7_s3 (pageAddr 0)).1 = RetCode.ok ∧
    (alloc_pages c7_s4 1).1 = AllocResult.ok 0 ∧
    (return_pages c7_s5 (pageAddr 2)).1 = RetCode.ok ∧
    (alloc_pages c7_s6 1).1 = AllocResult.ok 3 ∧
    (alloc_pages c7_s7 2).1 = AllocResult.ok 2 ∧
    (return_pages c7_s8 (pageAddr 3)).1 = RetCode.ok ∧
    walk_list c7_s9 (c7_s9.free_lists 1) 6 = [] ∧
    walk_list c7_s9 (c7_s9.free_lists 2) 6 = [3] ∧
    walk_list c7_s9 (c7_s9.free_lists 3) 6 = [] ∧
    (alloc_pages c7_s9 1).1 = AllocResult.ok 3 ∧
    (return_pages c7_sA (pageAddr 3)).1 = RetCode.ok ∧
    walk_list c7_sB (c7_sB.free_lists 1) 6 = [3, 4] ∧
    walk_list c7_sB (c7_sB.free_lists 2) 6 = [] ∧
    c7_sB.total_pages = 4 := by
  decide

def c8_s0 : BuddyState := (init_page blank 4).2
def c8_s1 : BuddyState := (alloc_pages c8_s0 1).2
def c8_s2 : BuddyState := (alloc_pages c8_s1 1).2
def c8_s3 : BuddyState := (alloc_pages c8_s2 1).2
def c8_s4 : BuddyState := (alloc_pages c8_s3 1).2
def c8_s5 : BuddyState := (return_pages c8_s4 (pageAddr 0)).2
def c8_s6 : BuddyState := (return_pages c8_s5 (pageAddr 2)).2
def c8_s7 : BuddyState := (alloc_pages c8_s6 1).2
def c8_s8 : BuddyState := (return_pages c8_s7 (pageAddr 1)).2
def c8_s9 : BuddyState := (alloc_pages c8_s8 1).2
def c8_sA : BuddyState := (return_pages c8_s9 (pageAddr 2)).2
def c8_sB : BuddyState := (return_pages c8_sA (pageAddr 0)).2

/-- C8: refuting evaluation.  After the eleven-call sequence (every call
succeeding, every free targeting a handle previously returned by
`alloc_pages` and still outstanding), the rank-2 free list is `[0, 2]`:
the blocks starting at pages 0 and 2 — buddies at rank 2, both rank-aligned
and in bounds — are simultaneously present on the same rank's free list,
violating the claimed invariant. -/
theorem c8_buddy_pair_reachable :
    (alloc_pages c8_s0 1).1 = AllocResult.ok 0 ∧
    (alloc_pages c8_s1 1).1 = AllocResult.ok 1 ∧
    (alloc_pages c8_s2 1).1 = AllocResult.ok 2 ∧
    (alloc_pages c8_s3 1).1 = AllocResult.ok 3 ∧
    (return_pages c8_s4 (pageAddr 0)).1 = RetCode.ok ∧
    (return_pages c8_s5 (pageAddr 2)).1 = RetCode.ok ∧
    (alloc_pages c8_s6 1).1 = AllocResult.ok 2 ∧
    (return_pages c8_s7 (pageAddr 1)).1 = RetCode.ok ∧
    (alloc_pages c8_s8 1).1 = AllocResult.ok 0 ∧
    (return_pages c8_s9 (pageAddr 2)).1 = RetCode.ok ∧
    (return_pages c8_sA (pageAddr 0)).1 = RetCode.ok ∧
    walk_list c8_sB (c8_sB.free_lists 2) 5 = [0, 2] ∧
    get_buddy_index 0 2 = 2 ∧
    0 % 2 ^ (2 - 1) = 0 ∧ 2 % 2 ^ (2 - 1) = 0 ∧
    0 + 2 ^ (2 - 1) ≤ c8_sB.total_pages ∧ 2 + 2 ^ (2 - 1) ≤ c8_sB.total_pages := by
  decide

/-- C9: counterexample to the claim as stated.  `init_page` with
`pgcount = 65537 > 65536` does not return an error: it returns `OK`, and its
partition loop writes the metadata byte of page 65536 — index 65536 of the
65536-entry `page_rank` table, an out-of-bounds write in the C code. -/
theorem c9_counterexample :
    (init_page blank 65537).1 = RetCode.ok ∧
    (init_page blank 65537).2.page_rank 65536 = 1 := by
  constructor
  · rfl
  · decide

/-- C9 (amended): `init_page` performs no capacity check at all — it returns
`OK` for every page count, including counts exceeding the 65536-entry
metadata table (for which the C code silently writes out of bounds, as the
counterexample records). -/
theorem init_page_always_ok (s : BuddyState) (n : Nat) :
    (init_page s n).1 = RetCode.ok := rfl

/-! ### Basic lemmas about the state primitives -/

theorem upd_same {α : Type} (f : Nat → α) (i : Nat) (v : α) : upd f i v i = v := by
  simp [upd]

theorem upd_ne {α : Type} (f : Nat → α) {i j : Nat} (v : α) (h : j ≠ i) : upd f i v j = f j := by
  simp [upd, h]

theorem or128_eq_add : ∀ r < 128, r ||| 128 = r + 128 := by decide

theorem add128_and128 : ∀ r < 128, (r + 128) &&& 128 = 128 := by decide

theorem add128_and127 : ∀ r < 128, (r + 128) &&& 127 = r := by decide

theorem add_fl_same (s : BuddyState) (i rk : Nat) :
    (add_to_free_list s i rk).free_lists rk = some i := by
  unfold add_to_free_list
  cases h : s.free_lists rk <;> simp [h, upd_same]

theorem add_fl_ne (s : BuddyState) (i rk : Nat) {k : Nat} (h : k ≠ rk) :
    (add_to_free_list s i rk).free_lists k = s.free_lists k := by
  unfold add_to_free_list
  cases hh : s.free_lists rk <;> simp [hh, upd_ne _ _ h]

theorem add_pr_same (s : BuddyState) (i rk : Nat) :
    (add_to_free_list s i rk).page_rank i = rk := by
  unfold add_to_free_list
  cases h : s.free_lists rk <;> simp [h, upd_same]

theorem add_pr_ne (s : BuddyState) (i rk : Nat) {j : Nat} (h : j ≠ i) :
    (add_to_free_list s i rk).page_rank j = s.page_rank j := by
  unfold add_to_free_list
  cases hh : s.free_lists rk <;> simp [hh, upd_ne _ _ h]

theorem add_total (s : BuddyState) (i rk : Nat) :
    (add_to_free_list s i rk).total_pages = s.total_pages := by
  unfold add_to_free_list
  cases h : s.free_lists rk <;> simp [h]

theorem add_nodes_next_self (s : BuddyState) (i rk : Nat) :
    ((add_to_free_list s i rk).nodes i).next = s.free_lists rk := by
  unfold add_to_free_list
  cases h : s.free_lists rk with
  | none => simp [h, upd_same]
  | some hd =>
    by_cases hi : hd = i
    · subst hi
      simp [h, upd_same]
    · simp [h, upd_same, upd_ne _ _ (fun hc => hi hc.symm), upd_ne]

theorem add_nodes_next_ne (s : BuddyState) (i rk : Nat) {j : Nat} (h : j ≠ i) :
    ((add_to_free_list s i rk).nodes j).next = (s.nodes j).next := by
  unfold add_to_free_list
  cases hh : s.free_lists rk with
  | none => simp [hh, upd_ne _ _ h]
  | some hd =>
    by_cases hj : j = hd
    · subst hj
      simp [hh, upd_same, upd_ne _ _ h]
    · simp [hh, upd_ne _ _ h, upd_ne _ _ hj]

/-! ### Lemmas about the search, split and mark loops of `alloc_pages` -/

theorem find_free_rank_eq (s : BuddyState) (fr b : Nat) (hfr : fr ≤ MAXRANK)
    (hb : s.free_lists fr = some b) :
    ∀ fuel r, r ≤ fr → fr - r < fuel →
      (∀ k, r ≤ k → k < fr → s.free_lists k = none) →
      find_free_rank s r fuel = some (fr, b) := by
  intro fuel
  induction fuel with
  | zero => intro r _ h; omega
  | succ fuel ih =>
    intro r hrfr hfuel hempty
    unfold find_free_rank
    rw [if_neg (by omega)]
    rcases Nat.lt_or_ge r fr with hlt | hge
    · rw [hempty r le_rfl hlt]
      exact ih (r + 1) hlt (by omega) (fun k hk1 hk2 => hempty k (by omega) hk2)
    · have : r = fr := by omega
      subst this
      rw [hb]

theorem find_free_rank_none (s : BuddyState) :
    ∀ fuel r, (∀ k, r ≤ k → k ≤ MAXRANK → s.free_lists k = none) →
      find_free_rank s r fuel = none := by
  intro fuel
  induction fuel with
  | zero => intro r _; rfl
  | succ fuel ih =>
    intro r hempty
    unfold find_free_rank
    by_cases hr : MAXRANK < r
    · rw [if_pos hr]
    · rw [if_neg hr, hempty r le_rfl (by omega)]
      exact ih (r + 1) (fun k hk1 hk2 => hempty k (by omega) hk2)

theorem split_loop_fl (b r : Nat) :
    ∀ found s k,
      (r ≤ k → k < found → (split_loop s b r found).free_lists k = some (b + 2 ^ (k - 1))) ∧
      ((k < r ∨ found ≤ k) → (split_loop s b r found).free_lists k = s.free_lists k) := by
  intro found
  induction found with
  | zero => intro s k; exact ⟨fun _ h => absurd h (Nat.not_lt_zero k), fun _ => rfl⟩
  | succ found ih =>
    intro s k
    unfold split_loop
    by_cases hr : r < found + 1
    · rw [if_pos hr]
      refine ⟨fun hk1 hk2 => ?_, fun hk => ?_⟩
      · rcases Nat.lt_or_ge k found with hkf | hkf
        · exact (ih _ k).1 hk1 hkf
        · have hkeq : k = found := by omega
          subst hkeq
          rw [(ih _ k).2 (Or.inr le_rfl)]
          exact add_fl_same _ _ _
      · rw [(ih _ k).2 (by omega)]
        have : k ≠ found := by omega
        exact add_fl_ne _ _ _ this
    · rw [if_neg hr]
      exact ⟨fun hk1 hk2 => by omega, fun _ => rfl⟩

theorem split_loop_pr (b r : Nat) :
    ∀ found s j, (∀ k, r ≤ k → k < found → j ≠ b + 2 ^ (k - 1)) →
      (split_loop s b r found).page_rank j = s.page_rank j := by
  intro found
  induction found with
  | zero => intro s j _; rfl
  | succ found ih =>
    intro s j hj
    unfold split_loop
    by_cases hr : r < found + 1
    · rw [if_pos hr]
      rw [ih _ j (fun k hk1 hk2 => hj k hk1 (by omega))]
      exact add_pr_ne _ _ _ (hj found (by omega) (by omega))
    · rw [if_neg hr]

theorem split_loop_total (b r : Nat) :
    ∀ found s, (split_loop s b r found).total_pages = s.total_pages := by
  intro found
  induction found with
  | zero => intro s; rfl
  | succ found ih =>
    intro s
    unfold split_loop
    by_cases hr : r < found + 1
    · rw [if_pos hr, ih, add_total]
    · rw [if_neg hr]

theorem mark_loop_pr_in (pr : Nat → Nat) (b r : Nat) :
    ∀ n j, b ≤ j → j < b + n → mark_loop pr b r n j = r ||| 128 := by
  intro n
  induction n with
  | zero => intro j h1 h2; omega
  | succ n ih =>
    intro j h1 h2
    unfold mark_loop
    by_cases hj : j = b + n
    · rw [hj, upd_same]
    · rw [upd_ne _ _ hj]
      exact ih j h1 (by omega)

theorem mark_loop_pr_out (pr : Nat → Nat) (b r : Nat) :
    ∀ n j, (j < b ∨ b + n ≤ j) → mark_loop pr b r n j = pr j := by
  intro n
  induction n with
  | zero => intro j _; rfl
  | succ n ih =>
    intro j hj
    unfold mark_loop
    rw [upd_ne _ _ (by omega)]
    exact ih j (by omega)

theorem MAXRANK_eq : MAXRANK = 16 := rfl

theorem alloc_guard_false {rank : Int} (h1 : 1 ≤ rank) (h16 : rank ≤ 16) :
    ¬(rank < 1 ∨ (MAXRANK : Int) < rank) := by
  rw [MAXRANK_eq]
  push_cast
  omega

/-- C2: `alloc_pages` behaves as specified.  Part 1: a rank outside
`[1, MAXRANK]` fails with invalid-argument.  Part 2: if every free list from
the requested rank up to `MAXRANK` is empty, it fails with out-of-space.
Part 3: if `fr` is the smallest rank `≥ rank` with a non-empty free list and
`b` is that list's head, then `alloc_pages` returns the starting address `b`,
removes `b` from list `fr` (the new head is `b`'s `next` link), pushes the
upper half `b + 2^(k-1)` onto the free list of each intermediate rank
`k ∈ [rank, fr)` produced by the splits, and marks every page of the
resulting `2^(rank-1)`-page block as allocated (bit 128 set) with rank
`rank`. -/
theorem c2_alloc_pages_spec (s : BuddyState) (rank : Int) :
    ((rank < 1 ∨ 16 < rank) → (alloc_pages s rank).1 = AllocResult.einval) ∧
    (1 ≤ rank → rank ≤ 16 →
      (∀ k, rank.toNat ≤ k → k ≤ 16 → s.free_lists k = none) →
      (alloc_pages s rank).1 = AllocResult.enospc) ∧
    (∀ fr b, 1 ≤ rank → rank ≤ 16 → rank.toNat ≤ fr → fr ≤ 16 →
      (∀ k, rank.toNat ≤ k → k < fr → s.free_lists k = none) →
      s.free_lists fr = some b →
      (alloc_pages s rank).1 = AllocResult.ok b ∧
      (alloc_pages s rank).2.free_lists fr = (s.nodes b).next ∧
      (∀ k, rank.toNat ≤ k → k < fr →
        (alloc_pages s rank).2.free_lists k = some (b + 2 ^ (k - 1))) ∧
      (∀ i, i < 2 ^ (rank.toNat - 1) →
        (alloc_pages s rank).2.page_rank (b + i) &&& 128 ≠ 0 ∧
        (alloc_pages s rank).2.page_rank (b + i) &&& 127 = rank.toNat)) := by
  refine ⟨fun h => ?_, fun h1 h16 hempty => ?_, fun fr b h1 h16 hrfr hfr hempty hb => ?_⟩
  · unfold alloc_pages
    rw [if_pos]
    rcases h with h | h
    · exact Or.inl h
    · refine Or.inr ?_
      rw [MAXRANK_eq]
      push_cast
      omega
  · unfold alloc_pages
    rw [if_neg (alloc_guard_false h1 h16),
      find_free_rank_none s (MAXRANK + 1) rank.toNat hempty]
  · have hfind : find_free_rank s rank.toNat (MAXRANK + 1) = some (fr, b) :=
      find_free_rank_eq s fr b hfr hb (MAXRANK + 1) rank.toNat hrfr
        (by rw [MAXRANK_eq]; omega) hempty
    have hfl2 : ∀ k, (alloc_pages s rank).2.free_lists k =
        (split_loop (alloc_pop s fr b) b rank.toNat fr).free_lists k := by
      intro k
      unfold alloc_pages
      rw [if_neg (alloc_guard_false h1 h16), hfind]
      rfl
    have hord : rank.toNat ||| 128 = rank.toNat + 128 :=
      or128_eq_add rank.toNat (by omega)
    refine ⟨?_, ?_, ?_, ?_⟩
    · unfold alloc_pages
      rw [if_neg (alloc_guard_false h1 h16), hfind]
    · rw [hfl2 fr, (split_loop_fl b rank.toNat fr _ fr).2 (Or.inr le_rfl)]
      exact upd_same _ _ _
    · intro k hk1 hk2
      rw [hfl2 k]
      exact (split_loop_fl b rank.toNat fr _ k).1 hk1 hk2
    · intro i hi
      have hpr : (alloc_pages s rank).2.page_rank (b + i) = rank.toNat ||| 128 := by
        unfold alloc_pages
        rw [if_neg (alloc_guard_false h1 h16), hfind]
        exact mark_loop_pr_in _ _ _ _ _ (by omega) (by omega)
      rw [hpr, hord]
      exact ⟨by rw [add128_and128 rank.toNat (by omega)]; omega,
        add128_and127 rank.toNat (by omega)⟩

def c2w_s : BuddyState := (init_page blank 4).2

/-- C2 witness: the three parts of `c2_alloc_pages_spec` instantiated on
concrete pools.  On the freshly initialised 4-page pool (whose only free
block is the rank-3 block at page 0), `alloc_pages(1)` finds rank 3, returns
page 0, pushes split halves at pages 2 (rank 2) and 1 (rank 1), and marks
page 0 allocated with rank 1. -/
theorem c2_witness :
    (alloc_pages blank 0).1 = AllocResult.einval ∧
    (alloc_pages blank 1).1 = AllocResult.enospc ∧
    (alloc_pages c2w_s 1).1 = AllocResult.ok 0 ∧
    (alloc_pages c2w_s 1).2.free_lists 3 = none ∧
    (alloc_pages c2w_s 1).2.free_lists 1 = some 1 ∧
    (alloc_pages c2w_s 1).2.free_lists 2 = some 2 ∧
    (alloc_pages c2w_s 1).2.page_rank 0 &&& 127 = 1 := by
  have hempty : ∀ k, (1 : Int).toNat ≤ k → k < 3 → c2w_s.free_lists k = none := by
    intro k h1 h2
    interval_cases k <;> decide
  have h3 : c2w_s.free_lists 3 = some 0 := by decide
  have hmain := (c2_alloc_pages_spec c2w_s 1).2.2 3 0 (by decide) (by decide)
    (by decide) (by decide) hempty h3
  refine ⟨(c2_alloc_pages_spec blank 0).1 (Or.inl (by decide)),
    (c2_alloc_pages_spec blank 1).2.1 (by decide) (by decide) (fun k _ _ => rfl),
    hmain.1, ?_, ?_, ?_, (hmain.2.2.2 0 (by decide)).2⟩
  · rw [hmain.2.1]
    decide
  · have := hmain.2.2.1 1 (by decide) (by decide)
    simpa using this
  · have := hmain.2.2.1 2 (by decide) (by decide)
    simpa using this

theorem PAGE_SIZE_eq : PAGE_SIZE = 4096 := rfl

theorem get_page_index_pageAddr (s : BuddyState) (i : Nat) (h : i < s.total_pages) :
    get_page_index s (pageAddr i) = (i : Int) := by
  show (if (i : Int) * (PAGE_SIZE : Nat) < 0 ∨
      ((s.total_pages : Int) * (PAGE_SIZE : Nat) : Int) ≤ (i : Int) * (PAGE_SIZE : Nat) then
        (-1 : Int)
      else if (i : Int) * (PAGE_SIZE : Nat) % (PAGE_SIZE : Nat) ≠ 0 then (-1 : Int)
      else (i : Int) * (PAGE_SIZE : Nat) / (PAGE_SIZE : Nat)) = (i : Int)
  rw [if_neg, if_neg]
  · exact Int.mul_ediv_cancel _ (by rw [PAGE_SIZE_eq]; norm_num)
  · simp [Int.mul_emod_left]
  · push_neg
    refine ⟨by positivity, ?_⟩
    apply mul_lt_mul_of_pos_right
    · exact_mod_cast h
    · rw [PAGE_SIZE_eq]; norm_num

/-- C10: the metadata written by `alloc_pages` (every page of the block) and
by freeing (only the merged block's first page) drive `query_ranks`.
Part 1: immediately after a successful `alloc_pages` of rank `rank` returning
a block `b` that lies within the pool, `query_ranks` on the page-aligned
address of every page of the block — the start and all interior pages —
returns `rank`.  Part 2: `query_ranks` on an in-pool page whose metadata
byte is 0 (as it is for an interior page of a free block that no operation
has individually touched) returns invalid-argument, because the rank bits
read as 0, outside `[1, MAXRANK]`. -/
theorem c10_query_ranks_spec (s : BuddyState) (rank : Int) :
    (∀ fr b, 1 ≤ rank → rank ≤ 16 → rank.toNat ≤ fr → fr ≤ 16 →
      (∀ k, rank.toNat ≤ k → k < fr → s.free_lists k = none) →
      s.free_lists fr = some b →
      b + 2 ^ (rank.toNat - 1) ≤ s.total_pages →
      ∀ i, i < 2 ^ (rank.toNat - 1) →
        query_ranks (alloc_pages s rank).2 (pageAddr (b + i)) =
          QueryResult.ok rank.toNat) ∧
    (∀ i, i < s.total_pages → s.page_rank i = 0 →
      (∃ rk a l, ListAt s (s.free_lists rk) l ∧ a ∈ l ∧ a < i ∧ i < a + 2 ^ (rk - 1)) →
      query_ranks s (pageAddr i) = QueryResult.einval) := by
  constructor
  · intro fr b h1 h16 hrfr hfr hempty hb hrange i hi
    have hfind : find_free_rank s rank.toNat (MAXRANK + 1) = some (fr, b) :=
      find_free_rank_eq s fr b hfr hb (MAXRANK + 1) rank.toNat hrfr
        (by rw [MAXRANK_eq]; omega) hempty
    have htot : (alloc_pages s rank).2.total_pages = s.total_pages := by
      unfold alloc_pages
      rw [if_neg (alloc_guard_false h1 h16), hfind]
      show (split_loop (alloc_pop s fr b) b rank.toNat fr).total_pages = s.total_pages
      rw [split_loop_total]
      rfl
    have hpr : (alloc_pages s rank).2.page_rank (b + i) = rank.toNat + 128 := by
      rw [← or128_eq_add rank.toNat (by omega)]
      unfold alloc_pages
      rw [if_neg (alloc_guard_false h1 h16), hfind]
      exact mark_loop_pr_in _ _ _ _ _ (by omega) (by omega)
    have hlt : b + i < (alloc_pages s rank).2.total_pages := by
      rw [htot]; omega
    unfold query_ranks
    rw [get_page_index_pageAddr _ _ hlt]
    rw [if_neg (by omega)]
    rw [Int.toNat_natCast, hpr, add128_and127 rank.toNat (by omega)]
    rw [if_pos ⟨by omega, by rw [MAXRANK_eq]; omega⟩]
  · intro i hlt hpr _
    unfold query_ranks
    rw [get_page_index_pageAddr _ _ hlt]
    rw [if_neg (by omega)]
    rw [Int.toNat_natCast, hpr]
    rw [if_neg (by decide)]

def c10w_s : BuddyState := (init_page blank 4).2

/-- C10 witness: on the freshly initialised 4-page pool, `alloc_pages(2)`
returns the block at page 0 covering pages 0 and 1; `query_ranks` answers 2
at both the start page and the interior page.  On the same pool before the
allocation, page 1 is an interior page of the free rank-3 block at page 0
with metadata byte 0, and `query_ranks` rejects it. -/
theorem c10_witness :
    query_ranks (alloc_pages c10w_s 2).2 (pageAddr 0) = QueryResult.ok 2 ∧
    query_ranks (alloc_pages c10w_s 2).2 (pageAddr 1) = QueryResult.ok 2 ∧
    query_ranks c10w_s (pageAddr 1) = QueryResult.einval := by
  have hempty : ∀ k, (2 : Int).toNat ≤ k → k < 3 → c10w_s.free_lists k = none := by
    intro k h1 h2
    interval_cases k <;> decide
  have ha := (c10_query_ranks_spec c10w_s 2).1 3 0 (by decide) (by decide) (by decide)
    (by decide) hempty (by decide) (by decide)
  refine ⟨?_, ?_, ?_⟩
  · simpa using ha 0 (by decide)
  · simpa using ha 1 (by decide)
  · exact (c10_query_ranks_spec c10w_s 2).2 1 (by decide) (by decide)
      ⟨3, 0, [0], ListAt.cons (by decide) ListAt.nil, by decide, by decide, by decide⟩

/-! ### Lemmas for symbolic runs of `return_pages` -/

theorem xor_two_pow_ne (a k : Nat) : a ^^^ 2 ^ k ≠ a := by
  intro h
  have h2 := congrArg (fun x => x ^^^ a) h
  simp only at h2
  rw [Nat.xor_comm a (2 ^ k), Nat.xor_cancel_right, Nat.xor_self] at h2
  exact absurd h2 (Nat.pos_iff_ne_zero.mp (Nat.two_pow_pos k))

theorem xor_invol (a k : Nat) : (a ^^^ 2 ^ k) ^^^ 2 ^ k = a := Nat.xor_cancel_right _ _

theorem pageAddr_ne_null (i : Nat) : pageAddr i ≠ Ptr.null := by
  simp [pageAddr]

theorem return_pages_valid (s : BuddyState) (idx r : Nat)
    (hidx : idx < s.total_pages)
    (hpr : s.page_rank idx = r + 128) (hr1 : 1 ≤ r) (hr16 : r ≤ 16) :
    return_pages s (pageAddr idx) = (RetCode.ok, return_finish s idx r) := by
  unfold return_pages
  rw [if_neg (pageAddr_ne_null idx)]
  rw [get_page_index_pageAddr _ _ hidx]
  rw [if_neg (by omega)]
  rw [Int.toNat_natCast, hpr]
  rw [add128_and128 r (by omega)]
  rw [if_neg (by decide)]
  rw [add128_and127 r (by omega)]
  rw [if_neg (by rw [MAXRANK_eq]; omega)]

theorem merge_loop_stop (s : BuddyState) (page_idx rank fuel : Nat)
    (h : rank < MAXRANK →
      s.total_pages < get_buddy_index page_idx rank + 2 ^ (rank - 1) ∨
      s.page_rank (get_buddy_index page_idx rank) ≠ rank) :
    merge_loop s page_idx rank (fuel + 1) = (s, page_idx, rank) := by
  unfold merge_loop
  by_cases h16 : rank < MAXRANK
  · rw [if_pos h16]
    rcases h h16 with h2 | h2
    · rw [if_pos h2]
    · by_cases h3 : s.total_pages < get_buddy_index page_idx rank + 2 ^ (rank - 1)
      · rw [if_pos h3]
      · rw [if_neg h3, if_pos h2]
  · rw [if_neg h16]

theorem merge_loop_step (s : BuddyState) (page_idx rank fuel : Nat)
    (h16 : rank < MAXRANK)
    (hin : get_buddy_index page_idx rank + 2 ^ (rank - 1) ≤ s.total_pages)
    (heq : s.page_rank (get_buddy_index page_idx rank) = rank) :
    merge_loop s page_idx rank (fuel + 1) =
      merge_loop (remove_from_free_list s (get_buddy_index page_idx rank) rank)
        (if get_buddy_index page_idx rank < page_idx then get_buddy_index page_idx rank
         else page_idx) (rank + 1) fuel := by
  conv_lhs => unfold merge_loop
  rw [if_pos h16, if_neg (by omega), if_neg (fun hne => hne heq)]

theorem remove_of_prev_none (s : BuddyState) (i rk : Nat)
    (hprev : (s.nodes i).prev = none) :
    (remove_from_free_list s i rk).free_lists = upd s.free_lists rk (s.nodes i).next ∧
    (remove_from_free_list s i rk).page_rank = s.page_rank ∧
    (remove_from_free_list s i rk).total_pages = s.total_pages ∧
    (∀ j, ((remove_from_free_list s i rk).nodes j).next = (s.nodes j).next) := by
  simp only [remove_from_free_list, hprev]
  cases hn : (s.nodes i).next with
  | none => simp [hn]
  | some nx =>
    simp only [hn]
    refine ⟨trivial, trivial, trivial, fun j => ?_⟩
    by_cases hj : j = nx
    · subst hj
      simp [upd_same]
    · simp [upd_ne _ _ hj]

theorem add_nodes_prev_self (s : BuddyState) (i rk : Nat) (h : s.free_lists rk ≠ some i) :
    ((add_to_free_list s i rk).nodes i).prev = none := by
  unfold add_to_free_list
  cases hh : s.free_lists rk with
  | none => simp [hh, upd_same]
  | some hd =>
    have hdi : hd ≠ i := fun hc => h (hc ▸ hh)
    simp [hh, upd_same, upd_ne _ _ (fun hc => hdi hc.symm)]

theorem ListAt_congr {s t : BuddyState} {h : Option Nat} {l : List Nat}
    (hs : ListAt s h l) (hnext : ∀ x ∈ l, (t.nodes x).next = (s.nodes x).next) :
    ListAt t h l := by
  induction hs with
  | nil => exact ListAt.nil
  | cons hn _ ih =>
    exact ListAt.cons (by rw [hnext _ (List.mem_cons_self _ _), hn])
      (ih fun x hx => hnext x (List.mem_cons_of_mem _ hx))

theorem ListAt_head_ne {s : BuddyState} {l : List Nat} {i : Nat}
    (hs : ListAt s (s.free_lists rk) l) (hi : i ∉ l) : s.free_lists rk ≠ some i := by
  intro hc
  rw [hc] at hs
  cases hs with
  | cons hn ht => exact hi (List.mem_cons_self _ _)

/-- C3 (amended): freeing two allocated rank-`r` buddy blocks coalesces them.
If `b1` and `b2 = b1 + 2^(r-1)` are buddies (`b2 = b1 XOR 2^(r-1)`), both
currently marked allocated with rank `r < 16`, both in bounds, and the merge
stops at rank `r+1` (because `r+1 = MAXRANK`, or the rank-`(r+1)` buddy is
out of range or not marked as a free rank-`(r+1)` block), then after
`return_pages` on both: the rank-`(r+1)` free list gains exactly the one
block `b1`, marked free with rank `r+1` and covering exactly the combined
range of the two blocks, while the rank-`r` free list is restored to exactly
what it was before the two calls — not two rank-`r` blocks.  (The original
claim is amended only in that when merging can continue past `r+1`, the two
blocks end in a single block of rank greater than `r+1`, as the
counterexample records.) -/
theorem c3_amended (s : BuddyState) (r b1 b2 : Nat) (Lr Lnext : List Nat)
    (hr1 : 1 ≤ r) (hr16 : r < 16)
    (hxor : get_buddy_index b1 r = b2)
    (hadd : b2 = b1 + 2 ^ (r - 1))
    (hrange : b2 + 2 ^ (r - 1) ≤ s.total_pages)
    (hpr1 : s.page_rank b1 = r + 128) (hpr2 : s.page_rank b2 = r + 128)
    (hstop : r + 1 = 16 ∨ s.total_pages < get_buddy_index b1 (r + 1) + 2 ^ r ∨
      s.page_rank (get_buddy_index b1 (r + 1)) ≠ r + 1)
    (hLr : ListAt s (s.free_lists r) Lr) (hb1Lr : b1 ∉ Lr)
    (hLnext : ListAt s (s.free_lists (r + 1)) Lnext) (hb1Lnext : b1 ∉ Lnext) :
    (return_pages s (pageAddr b1)).1 = RetCode.ok ∧
    (return_pages (return_pages s (pageAddr b1)).2 (pageAddr b2)).1 = RetCode.ok ∧
    ((return_pages (return_pages s (pageAddr b1)).2 (pageAddr b2)).2.free_lists (r + 1) =
      some b1) ∧
    ((return_pages (return_pages s (pageAddr b1)).2 (pageAddr b2)).2.page_rank b1 = r + 1) ∧
    ListAt (return_pages (return_pages s (pageAddr b1)).2 (pageAddr b2)).2
      ((return_pages (return_pages s (pageAddr b1)).2 (pageAddr b2)).2.free_lists (r + 1))
      (b1 :: Lnext) ∧
    ((return_pages (return_pages s (pageAddr b1)).2 (pageAddr b2)).2.free_lists r =
      s.free_lists r) ∧
    ListAt (return_pages (return_pages s (pageAddr b1)).2 (pageAddr b2)).2
      ((return_pages (return_pages s (pageAddr b1)).2 (pageAddr b2)).2.free_lists r) Lr ∧
    Finset.Ico b1 (b1 + 2 ^ r) =
      Finset.Ico b1 (b1 + 2 ^ (r - 1)) ∪ Finset.Ico b2 (b2 + 2 ^ (r - 1)) := by
  have hpow : 0 < 2 ^ (r - 1) := Nat.two_pow_pos _
  have hpow2 : 2 ^ r = 2 ^ (r - 1) + 2 ^ (r - 1) := by
    have hre : r - 1 + 1 = r := by omega
    calc 2 ^ r = 2 ^ (r - 1 + 1) := by rw [hre]
    _ = 2 ^ (r - 1) + 2 ^ (r - 1) := by rw [pow_succ]; omega
  have hb12 : b1 < b2 := by omega
  have hb1lt : b1 < s.total_pages := by omega
  have hb2lt : b2 < s.total_pages := by omega
  have hne21 : b2 ≠ b1 := by omega
  -- the first call: the buddy b2 is still marked allocated, so no merge happens
  have hrun1 : return_pages s (pageAddr b1) = (RetCode.ok, add_to_free_list s b1 r) := by
    rw [return_pages_valid s b1 r hb1lt hpr1 hr1 (by omega)]
    have hm : merge_loop s b1 r MAXRANK = (s, b1, r) := by
      refine merge_loop_stop s b1 r 15 (fun _ => Or.inr ?_)
      rw [hxor, hpr2]
      omega
    unfold return_finish
    rw [hm]
  set s1 := add_to_free_list s b1 r with hs1
  -- facts about the intermediate state
  have hflr1 : s1.free_lists r = some b1 := add_fl_same s b1 r
  have hprb1 : s1.page_rank b1 = r := add_pr_same s b1 r
  have hpro1 : ∀ j, j ≠ b1 → s1.page_rank j = s.page_rank j :=
    fun j hj => add_pr_ne s b1 r hj
  have htot1 : s1.total_pages = s.total_pages := add_total s b1 r
  have hnext1 : (s1.nodes b1).next = s.free_lists r := add_nodes_next_self s b1 r
  have hprev1 : (s1.nodes b1).prev = none :=
    add_nodes_prev_self s b1 r (ListAt_head_ne hLr hb1Lr)
  have hnodes1 : ∀ j, j ≠ b1 → (s1.nodes j).next = (s.nodes j).next :=
    fun j hj => add_nodes_next_ne s b1 r hj
  -- the buddy of b2 at rank r is b1
  have hxor2 : get_buddy_index b2 r = b1 := by
    unfold get_buddy_index at *
    rw [← hxor, Nat.xor_cancel_right]
  -- the second call merges exactly once and stops at rank r+1
  have hrem := remove_of_prev_none s1 b1 r hprev1
  set s2 := remove_from_free_list s1 b1 r with hs2
  have hfl2 : s2.free_lists = upd s1.free_lists r (s.free_lists r) := by
    rw [hrem.1, hnext1]
  have hflr2 : s2.free_lists r = s.free_lists r := by rw [hfl2]; exact upd_same _ _ _
  have hflo2 : ∀ k, k ≠ r → s2.free_lists k = s1.free_lists k := by
    intro k hk
    rw [hfl2]
    exact upd_ne _ _ hk
  have hbuddy2_ne1 : get_buddy_index b1 (r + 1) ≠ b1 := by
    show b1 ^^^ 2 ^ (r + 1 - 1) ≠ b1
    exact xor_two_pow_ne b1 (r + 1 - 1)
  have hrun2 : return_pages s1 (pageAddr b2) = (RetCode.ok, add_to_free_list s2 b1 (r + 1)) := by
    rw [return_pages_valid s1 b2 r (by omega) (by rw [hpro1 b2 hne21]; exact hpr2) hr1 (by omega)]
    have hm2 : merge_loop s1 b2 r MAXRANK = (s2, b1, r + 1) := by
      have hstep := merge_loop_step s1 b2 r 15 (by rw [MAXRANK_eq]; omega)
        (by rw [hxor2, htot1]; omega) (by rw [hxor2]; exact hprb1)
      rw [hxor2] at hstep
      norm_num at hstep
      rw [MAXRANK_eq, hstep, if_pos hb12]
      refine merge_loop_stop s2 b1 (r + 1) 14 (fun h16 => ?_)
      rcases hstop with h | h | h
      · rw [MAXRANK_eq] at h16; omega
      · exact Or.inl (by rw [hrem.2.2.1, htot1]; simpa using h)
      · refine Or.inr ?_
        rw [hrem.2.1]
        rw [hpro1 _ hbuddy2_ne1]
        simpa using h
    unfold return_finish
    rw [hm2]
  -- the final state
  set f := add_to_free_list s2 b1 (r + 1) with hf
  have hrr : r ≠ r + 1 := by omega
  have hflfr : f.free_lists r = s.free_lists r := by
    rw [hf, add_fl_ne s2 b1 (r + 1) hrr, hflr2]
  have hnextsf : ∀ j, j ≠ b1 → (f.nodes j).next = (s.nodes j).next := by
    intro j hj
    rw [hf, add_nodes_next_ne s2 b1 (r + 1) hj, hrem.2.2.2 j, hnodes1 j hj]
  refine ⟨by rw [hrun1], by rw [hrun1, hrun2], ?_, ?_, ?_, ?_, ?_, ?_⟩
  · rw [hrun1, hrun2]
    exact add_fl_same s2 b1 (r + 1)
  · rw [hrun1, hrun2]
    exact add_pr_same s2 b1 (r + 1)
  · have htail : ListAt f (s.free_lists (r + 1)) Lnext :=
      ListAt_congr hLnext (fun x hx => hnextsf x (fun hc => hb1Lnext (hc ▸ hx)))
    have hhd : (f.nodes b1).next = s.free_lists (r + 1) := by
      rw [hf, add_nodes_next_self s2 b1 (r + 1), hflo2 (r + 1) (by omega),
        add_fl_ne s b1 r (by omega)]
    have hfl : f.free_lists (r + 1) = some b1 := add_fl_same s2 b1 (r + 1)
    rw [hrun1, hrun2]
    show ListAt f (f.free_lists (r + 1)) (b1 :: Lnext)
    rw [hfl]
    exact ListAt.cons hhd htail
  · rw [hrun1, hrun2]
    exact hflfr
  · rw [hrun1, hrun2]
    show ListAt f (f.free_lists r) Lr
    rw [hflfr]
    exact ListAt_congr hLr (fun x hx => hnextsf x (fun hc => hb1Lr (hc ▸ hx)))
  · rw [hadd]
    rw [Finset.Ico_union_Ico_eq_Ico (by omega) (by omega)]
    congr 1
    omega

def c3w_s0 : BuddyState := (init_page blank 2).2
def c3w_s1 : BuddyState := (alloc_pages c3w_s0 1).2
def c3w_s2 : BuddyState := (alloc_pages c3w_s1 1).2

/-- C3 witness: on a 2-page pool after allocating the rank-1 buddies at
pages 0 and 1, freeing both leaves a single rank-2 free block at page 0 (the
rank-2 merge stops because the rank-2 buddy would be out of range). -/
theorem c3_amended_witness :
    (return_pages c3w_s2 (pageAddr 0)).1 = RetCode.ok ∧
    (return_pages (return_pages c3w_s2 (pageAddr 0)).2 (pageAddr 1)).1 = RetCode.ok ∧
    (return_pages (return_pages c3w_s2 (pageAddr 0)).2 (pageAddr 1)).2.free_lists 2 =
      some 0 ∧
    (return_pages (return_pages c3w_s2 (pageAddr 0)).2 (pageAddr 1)).2.page_rank 0 = 2 := by
  have hLr : ListAt c3w_s2 (c3w_s2.free_lists 1) [] := by
    have h : c3w_s2.free_lists 1 = none := by decide
    rw [h]
    exact ListAt.nil
  have hLnext : ListAt c3w_s2 (c3w_s2.free_lists 2) [] := by
    have h : c3w_s2.free_lists 2 = none := by decide
    rw [h]
    exact ListAt.nil
  have h := c3_amended c3w_s2 1 0 1 [] [] (by decide) (by decide) (by decide) (by decide)
    (by decide) (by decide) (by decide) (Or.inr (Or.inl (by decide))) hLr (by simp) hLnext
    (by simp)
  exact ⟨h.1, h.2.1, h.2.2.1, h.2.2.2.1⟩

/-! ### The partition computed by `init_page` -/

/-- The sequence of blocks `(start, rank)` that the cursor loop of
`init_page` inserts, read off the same recursion as `init_loop`. -/
def greedy_blocks (pgcount : Nat) : Nat → Nat → List (Nat × Nat)
  | _, 0 => []
  | current, fuel + 1 =>
    if current < pgcount then
      if 0 < best_rank current pgcount then
        (current, best_rank current pgcount) ::
          greedy_blocks pgcount (current + 2 ^ (best_rank current pgcount - 1)) fuel
      else greedy_blocks pgcount (current + 1) fuel
    else []

theorem init_loop_eq_foldl (pgcount : Nat) :
    ∀ fuel s current,
      init_loop pgcount s current fuel =
        (greedy_blocks pgcount current fuel).foldl
          (fun t p => add_to_free_list t p.1 p.2) s := by
  intro fuel
  induction fuel with
  | zero => intro s current; rfl
  | succ fuel ih =>
    intro s current
    unfold init_loop greedy_blocks
    by_cases hc : current < pgcount
    · rw [if_pos hc, if_pos hc]
      by_cases hb : 0 < best_rank current pgcount
      · rw [if_pos hb, if_pos hb, ih]
        rfl
      · rw [if_neg hb, if_neg hb, ih]
    · rw [if_neg hc, if_neg hc]
      rfl

theorem rank_scan_le (current pgcount : Nat) : ∀ f, rank_scan current pgcount f ≤ f := by
  intro f
  induction f with
  | zero => exact le_rfl
  | succ f ih =>
    unfold rank_scan
    by_cases hc : current % 2 ^ f = 0 ∧ current + 2 ^ f ≤ pgcount
    · rw [if_pos hc]
    · rw [if_neg hc]
      omega

theorem rank_scan_pos (current pgcount : Nat) (h : current < pgcount) :
    ∀ f, 1 ≤ f → 0 < rank_scan current pgcount f := by
  intro f
  induction f with
  | zero => omega
  | succ f ih =>
    intro _
    unfold rank_scan
    by_cases hc : current % 2 ^ f = 0 ∧ current + 2 ^ f ≤ pgcount
    · rw [if_pos hc]
      omega
    · rw [if_neg hc]
      rcases Nat.eq_zero_or_pos f with hf | hf
      · subst hf
        exact absurd ⟨Nat.mod_one current, by omega⟩ hc
      · exact ih (by omega)

theorem rank_scan_spec (current pgcount : Nat) :
    ∀ f, 0 < rank_scan current pgcount f →
      current % 2 ^ (rank_scan current pgcount f - 1) = 0 ∧
      current + 2 ^ (rank_scan current pgcount f - 1) ≤ pgcount := by
  intro f
  induction f with
  | zero => intro h; simp [rank_scan] at h
  | succ f ih =>
    by_cases hc : current % 2 ^ f = 0 ∧ current + 2 ^ f ≤ pgcount
    · intro _
      rw [show rank_scan current pgcount (f + 1) = f + 1 from by
        unfold rank_scan; rw [if_pos hc]]
      simpa using hc
    · have heq : rank_scan current pgcount (f + 1) = rank_scan current pgcount f := by
        conv_lhs => unfold rank_scan
        rw [if_neg hc]
      intro hpos
      rw [heq] at hpos ⊢
      exact ih hpos

theorem rank_scan_max (current pgcount : Nat) :
    ∀ f j, rank_scan current pgcount f < j + 1 → j + 1 ≤ f →
      ¬(current % 2 ^ j = 0 ∧ current + 2 ^ j ≤ pgcount) := by
  intro f
  induction f with
  | zero => intro j _ h2; omega
  | succ f ih =>
    intro j h1 h2
    unfold rank_scan at h1
    by_cases hc : current % 2 ^ f = 0 ∧ current + 2 ^ f ≤ pgcount
    · rw [if_pos hc] at h1
      omega
    · rw [if_neg hc] at h1
      rcases Nat.lt_or_ge j f with hj | hj
      · exact ih j h1 (by omega)
      · have : j = f := by omega
        subst this
        exact hc

theorem best_rank_pos (current pgcount : Nat) (h : current < pgcount) :
    0 < best_rank current pgcount :=
  rank_scan_pos current pgcount h MAXRANK (by rw [MAXRANK_eq]; omega)

theorem best_rank_le (current pgcount : Nat) : best_rank current pgcount ≤ 16 := by
  have := rank_scan_le current pgcount MAXRANK
  rw [MAXRANK_eq] at this
  exact this

theorem best_rank_spec (current pgcount : Nat) (h : 0 < best_rank current pgcount) :
    current % 2 ^ (best_rank current pgcount - 1) = 0 ∧
    current + 2 ^ (best_rank current pgcount - 1) ≤ pgcount :=
  rank_scan_spec current pgcount MAXRANK h

theorem best_rank_max (current pgcount : Nat) (j : Nat)
    (h1 : best_rank current pgcount < j + 1) (h2 : j + 1 ≤ 16) :
    ¬(current % 2 ^ j = 0 ∧ current + 2 ^ j ≤ pgcount) :=
  rank_scan_max current pgcount MAXRANK j h1 (by rw [MAXRANK_eq]; omega)

/-- The page set covered by a block `(start, rank)`. -/
def blockSet (p : Nat × Nat) : Finset Nat := Finset.Ico p.1 (p.1 + 2 ^ (p.2 - 1))

/-- `tiles n c l`: the blocks `l` tile the page interval `[c, n)` exactly,
consecutively and in order, each block rank-aligned with rank in
`[1, MAXRANK]`. -/
def tiles (n : Nat) : Nat → List (Nat × Nat) → Prop
  | c, [] => c = n
  | c, p :: rest =>
    p.1 = c ∧ 1 ≤ p.2 ∧ p.2 ≤ 16 ∧ c % 2 ^ (p.2 - 1) = 0 ∧ c + 2 ^ (p.2 - 1) ≤ n ∧
      tiles n (c + 2 ^ (p.2 - 1)) rest

theorem greedy_tiles (n : Nat) :
    ∀ fuel c, c ≤ n → n ≤ c + fuel → tiles n c (greedy_blocks n c fuel) := by
  intro fuel
  induction fuel with
  | zero =>
    intro c h1 h2
    unfold greedy_blocks tiles
    omega
  | succ fuel ih =>
    intro c h1 h2
    unfold greedy_blocks
    by_cases hc : c < n
    · rw [if_pos hc, if_pos (best_rank_pos c n hc)]
      have hspec := best_rank_spec c n (best_rank_pos c n hc)
      have hpow : 0 < 2 ^ (best_rank c n - 1) := Nat.two_pow_pos _
      exact ⟨rfl, best_rank_pos c n hc, best_rank_le c n, hspec.1, hspec.2,
        ih (c + 2 ^ (best_rank c n - 1)) hspec.2 (by omega)⟩
    · rw [if_neg hc]
      unfold tiles
      omega

theorem tiles_le (n : Nat) : ∀ l c, tiles n c l → c ≤ n := by
  intro l
  induction l with
  | nil => intro c h; exact le_of_eq h
  | cons p rest ih =>
    intro c h
    have := ih _ h.2.2.2.2.2
    have hpow : 0 < 2 ^ (p.2 - 1) := Nat.two_pow_pos _
    omega

theorem tiles_mem_bounds (n : Nat) :
    ∀ l c, tiles n c l → ∀ p ∈ l,
      c ≤ p.1 ∧ 1 ≤ p.2 ∧ p.2 ≤ 16 ∧ p.1 % 2 ^ (p.2 - 1) = 0 ∧ p.1 + 2 ^ (p.2 - 1) ≤ n := by
  intro l
  induction l with
  | nil => intro c _ p hp; exact absurd hp (List.not_mem_nil p)
  | cons q rest ih =>
    intro c h p hp
    obtain ⟨hq, h1, h16, hal, hfit, htail⟩ := h
    rcases List.mem_cons.mp hp with hpq | hpr
    · subst hpq
      rw [hq]
      exact ⟨le_rfl, h1, h16, hal, hfit⟩
    · have := ih _ htail p hpr
      have hpow : 0 < 2 ^ (q.2 - 1) := Nat.two_pow_pos _
      exact ⟨by omega, this.2⟩

theorem tiles_union (n : Nat) :
    ∀ l c, tiles n c l →
      l.foldr (fun p acc => blockSet p ∪ acc) ∅ = Finset.Ico c n := by
  intro l
  induction l with
  | nil =>
    intro c h
    rw [List.foldr_nil, h, Finset.Ico_self]
  | cons p rest ih =>
    intro c h
    obtain ⟨hq, _, _, _, hfit, htail⟩ := h
    rw [List.foldr_cons, ih _ htail]
    unfold blockSet
    rw [hq]
    exact Finset.Ico_union_Ico_eq_Ico (by omega) (tiles_le n rest _ htail)

theorem tiles_pairwise (n : Nat) :
    ∀ l c, tiles n c l →
      l.Pairwise (fun p q => Disjoint (blockSet p) (blockSet q)) := by
  intro l
  induction l with
  | nil => intro c _; exact List.Pairwise.nil
  | cons p rest ih =>
    intro c h
    obtain ⟨hq, _, _, _, hfit, htail⟩ := h
    refine List.Pairwise.cons (fun q hq2 => ?_) (ih _ htail)
    have hb := tiles_mem_bounds n rest _ htail q hq2
    refine Finset.disjoint_left.mpr (fun a ha hb2 => ?_)
    unfold blockSet at ha hb2
    rw [hq] at ha
    simp only [Finset.mem_Ico] at ha hb2
    omega

theorem tiles_starts_nodup (n : Nat) :
    ∀ l c, tiles n c l → (l.map Prod.fst).Nodup := by
  intro l
  induction l with
  | nil => intro c _; exact List.nodup_nil
  | cons p rest ih =>
    intro c h
    obtain ⟨hq, _, _, _, hfit, htail⟩ := h
    rw [List.map_cons]
    refine List.Nodup.cons (fun hmem => ?_) (ih _ htail)
    rcases List.mem_map.mp hmem with ⟨q, hq2, hq3⟩
    have hb := tiles_mem_bounds n rest _ htail q hq2
    have hpow : 0 < 2 ^ (p.2 - 1) := Nat.two_pow_pos _
    omega

theorem tiles_sum (n : Nat) :
    ∀ l c, tiles n c l → c + (l.map (fun p => 2 ^ (p.2 - 1))).sum = n := by
  intro l
  induction l with
  | nil => intro c h; simpa using h
  | cons p rest ih =>
    intro c h
    obtain ⟨hq, _, _, _, hfit, htail⟩ := h
    have := ih _ htail
    rw [List.map_cons, List.sum_cons]
    omega

/-! ### Population count and the minimality of the greedy partition -/

/-- Binary population count: the number of 1 bits of `n`. -/
def pc : Nat → Nat
  | 0 => 0
  | n + 1 => pc ((n + 1) / 2) + (n + 1) % 2
decreasing_by exact Nat.div_lt_self (Nat.succ_pos n) (by norm_num)

theorem pc_zero : pc 0 = 0 := by rw [pc]

theorem pc_eq (n : Nat) (h : n ≠ 0) : pc n = pc (n / 2) + n % 2 := by
  cases n with
  | zero => omega
  | succ m => rw [pc]

theorem pc_one : pc 1 = 1 := by rw [pc_eq 1 (by omega), pc_zero]

theorem pc_two_mul (x : Nat) : pc (2 * x) = pc x := by
  rcases Nat.eq_zero_or_pos x with hx | hx
  · subst hx; rfl
  · rw [pc_eq (2 * x) (by omega)]
    have h1 : 2 * x / 2 = x := by omega
    have h2 : 2 * x % 2 = 0 := by omega
    rw [h1, h2]
    omega

theorem pc_two_mul_add_one (x : Nat) : pc (2 * x + 1) = pc x + 1 := by
  rw [pc_eq (2 * x + 1) (by omega)]
  have h1 : (2 * x + 1) / 2 = x := by omega
  have h2 : (2 * x + 1) % 2 = 1 := by omega
  rw [h1, h2]

theorem pc_pow (k : Nat) : pc (2 ^ k) = 1 := by
  induction k with
  | zero => exact pc_one
  | succ k ih =>
    have : 2 ^ (k + 1) = 2 * 2 ^ k := by rw [pow_succ]; ring
    rw [this, pc_two_mul, ih]

theorem pc_add_le_aux : ∀ m a b, a + b ≤ m → pc (a + b) ≤ pc a + pc b := by
  intro m
  induction m with
  | zero =>
    intro a b h
    have h0 : a = 0 ∧ b = 0 := by omega
    simp [h0.1, h0.2, pc_zero]
  | succ m ih =>
    intro a b h
    rcases Nat.eq_zero_or_pos a with ha | ha
    · subst ha; simp
    rcases Nat.eq_zero_or_pos b with hb | hb
    · subst hb; simp
    have hma : a % 2 = 0 ∨ a % 2 = 1 := by omega
    have hmb : b % 2 = 0 ∨ b % 2 = 1 := by omega
    rcases hma with hma | hma <;> rcases hmb with hmb | hmb
    · have e1 : a + b = 2 * (a / 2 + b / 2) := by omega
      have hpab : pc (a + b) = pc (a / 2 + b / 2) := by rw [e1, pc_two_mul]
      have hpa : pc a = pc (a / 2) := by
        conv_lhs => rw [show a = 2 * (a / 2) from by omega]
        rw [pc_two_mul]
      have hpb : pc b = pc (b / 2) := by
        conv_lhs => rw [show b = 2 * (b / 2) from by omega]
        rw [pc_two_mul]
      have hih := ih (a / 2) (b / 2) (by omega)
      omega
    · have e1 : a + b = 2 * (a / 2 + b / 2) + 1 := by omega
      have hpab : pc (a + b) = pc (a / 2 + b / 2) + 1 := by rw [e1, pc_two_mul_add_one]
      have hpa : pc a = pc (a / 2) := by
        conv_lhs => rw [show a = 2 * (a / 2) from by omega]
        rw [pc_two_mul]
      have hpb : pc b = pc (b / 2) + 1 := by
        conv_lhs => rw [show b = 2 * (b / 2) + 1 from by omega]
        rw [pc_two_mul_add_one]
      have hih := ih (a / 2) (b / 2) (by omega)
      omega
    · have e1 : a + b = 2 * (a / 2 + b / 2) + 1 := by omega
      have hpab : pc (a + b) = pc (a / 2 + b / 2) + 1 := by rw [e1, pc_two_mul_add_one]
      have hpa : pc a = pc (a / 2) + 1 := by
        conv_lhs => rw [show a = 2 * (a / 2) + 1 from by omega]
        rw [pc_two_mul_add_one]
      have hpb : pc b = pc (b / 2) := by
        conv_lhs => rw [show b = 2 * (b / 2) from by omega]
        rw [pc_two_mul]
      have hih := ih (a / 2) (b / 2) (by omega)
      omega
    · have e1 : a + b = 2 * (a / 2 + b / 2 + 1) := by omega
      have hpab : pc (a + b) = pc (a / 2 + b / 2 + 1) := by rw [e1, pc_two_mul]
      have hpa : pc a = pc (a / 2) + 1 := by
        conv_lhs => rw [show a = 2 * (a / 2) + 1 from by omega]
        rw [pc_two_mul_add_one]
      have hpb : pc b = pc (b / 2) + 1 := by
        conv_lhs => rw [show b = 2 * (b / 2) + 1 from by omega]
        rw [pc_two_mul_add_one]
      have hih1 := ih (a / 2 + b / 2) 1 (by omega)
      have hih2 := ih (a / 2) (b / 2) (by omega)
      have hp1 : pc 1 = 1 := pc_one
      omega

theorem pc_add_le (a b : Nat) : pc (a + b) ≤ pc a + pc b :=
  pc_add_le_aux (a + b) a b le_rfl

theorem pc_pow_add : ∀ e m, m < 2 ^ e → pc (2 ^ e + m) = pc m + 1 := by
  intro e
  induction e with
  | zero =>
    intro m hm
    have : m = 0 := by omega
    subst this
    rw [pc_zero]
    exact pc_one
  | succ e ih =>
    intro m hm
    have hp : 2 ^ (e + 1) = 2 * 2 ^ e := by rw [pow_succ]; ring
    have hmm : m % 2 = 0 ∨ m % 2 = 1 := by omega
    rcases hmm with hmm | hmm
    · have e1 : 2 ^ (e + 1) + m = 2 * (2 ^ e + m / 2) := by omega
      have h1 : pc (2 ^ (e + 1) + m) = pc (2 ^ e + m / 2) := by rw [e1, pc_two_mul]
      have h2 := ih (m / 2) (by omega)
      have h3 : pc m = pc (m / 2) := by
        conv_lhs => rw [show m = 2 * (m / 2) from by omega]
        rw [pc_two_mul]
      omega
    · have e1 : 2 ^ (e + 1) + m = 2 * (2 ^ e + m / 2) + 1 := by omega
      have h1 : pc (2 ^ (e + 1) + m) = pc (2 ^ e + m / 2) + 1 := by
        rw [e1, pc_two_mul_add_one]
      have h2 := ih (m / 2) (by omega)
      have h3 : pc m = pc (m / 2) + 1 := by
        conv_lhs => rw [show m = 2 * (m / 2) + 1 from by omega]
        rw [pc_two_mul_add_one]
      omega

theorem pc_sum_le : ∀ L : List Nat, pc L.sum ≤ (L.map pc).sum := by
  intro L
  induction L with
  | nil => simp [pc_zero]
  | cons x L ih =>
    rw [List.sum_cons, List.map_cons, List.sum_cons]
    have := pc_add_le x L.sum
    omega

theorem sum_map_pc_pow : ∀ l : List (Nat × Nat),
    ((l.map (fun p => 2 ^ (p.2 - 1))).map pc).sum = l.length := by
  intro l
  induction l with
  | nil => rfl
  | cons p l ih =>
    rw [List.map_cons, List.map_cons, List.sum_cons, List.length_cons, ih, pc_pow]
    omega

theorem sum_sizes_le : ∀ l : List (Nat × Nat), (∀ p ∈ l, p.2 ≤ 16) →
    (l.map (fun p => 2 ^ (p.2 - 1))).sum ≤ l.length * 2 ^ 15 := by
  intro l
  induction l with
  | nil => intro _; simp
  | cons p l ih =>
    intro h
    rw [List.map_cons, List.sum_cons, List.length_cons]
    have h1 : 2 ^ (p.2 - 1) ≤ 2 ^ 15 :=
      Nat.pow_le_pow_right (by norm_num)
        (by have := h p (List.mem_cons_self p l); omega)
    have h2 := ih (fun q hq => h q (List.mem_cons_of_mem _ hq))
    have h3 : (l.length + 1) * 2 ^ 15 = l.length * 2 ^ 15 + 2 ^ 15 := by ring
    omega

/-- A partition of the pages `[0, n)` into aligned power-of-two blocks with
ranks in `[1, MAXRANK]`: a list of `(start, rank)` pairs with pairwise
disjoint page sets whose union is exactly `[0, n)`. -/
def IsPartition (n : Nat) (l : List (Nat × Nat)) : Prop :=
  (∀ p ∈ l, 1 ≤ p.2 ∧ p.2 ≤ 16 ∧ p.1 % 2 ^ (p.2 - 1) = 0) ∧
  l.Pairwise (fun p q => Disjoint (blockSet p) (blockSet q)) ∧
  l.foldr (fun p acc => blockSet p ∪ acc) ∅ = Finset.range n

theorem disjoint_foldr_union (A : Finset Nat) :
    ∀ l : List (Nat × Nat), (∀ q ∈ l, Disjoint A (blockSet q)) →
      Disjoint A (l.foldr (fun p acc => blockSet p ∪ acc) ∅) := by
  intro l
  induction l with
  | nil => intro _; simp
  | cons p l ih =>
    intro h
    rw [List.foldr_cons, Finset.disjoint_union_right]
    exact ⟨h p (List.mem_cons_self p l), ih (fun q hq => h q (List.mem_cons_of_mem _ hq))⟩

theorem card_foldr_union :
    ∀ l : List (Nat × Nat), l.Pairwise (fun p q => Disjoint (blockSet p) (blockSet q)) →
      (l.foldr (fun p acc => blockSet p ∪ acc) ∅).card =
        (l.map (fun p => 2 ^ (p.2 - 1))).sum := by
  intro l
  induction l with
  | nil => simp
  | cons p l ih =>
    intro hp
    rw [List.foldr_cons, List.map_cons, List.sum_cons]
    obtain ⟨hhead, htail⟩ := List.pairwise_cons.mp hp
    rw [Finset.card_union_of_disjoint (disjoint_foldr_union _ l hhead)]
    rw [ih htail]
    have hbc : (blockSet p).card = 2 ^ (p.2 - 1) := by
      unfold blockSet
      rw [Nat.card_Ico]
      exact Nat.add_sub_cancel_left _ _
    omega

theorem partition_sum {n : Nat} {l : List (Nat × Nat)} (h : IsPartition n l) :
    (l.map (fun p => 2 ^ (p.2 - 1))).sum = n := by
  have hc := card_foldr_union l h.2.1
  rw [h.2.2, Finset.card_range] at hc
  omega

theorem partition_length_ge_pc {n : Nat} {l : List (Nat × Nat)} (h : IsPartition n l) :
    pc n ≤ l.length := by
  have hsum := partition_sum h
  have h1 : pc n ≤ ((l.map (fun p => 2 ^ (p.2 - 1))).map pc).sum := by
    rw [← hsum]
    exact pc_sum_le _
  rw [sum_map_pc_pow] at h1
  exact h1

theorem partition_length_ge_cap {n : Nat} {l : List (Nat × Nat)} (h : IsPartition n l) :
    n ≤ l.length * 2 ^ 15 := by
  have hsum := partition_sum h
  have := sum_sizes_le l (fun p hp => (h.1 p hp).2.1)
  omega

theorem greedy_blocks_nil (n : Nat) : ∀ fuel c, n ≤ c → greedy_blocks n c fuel = [] := by
  intro fuel c h
  cases fuel with
  | zero => rfl
  | succ fuel =>
    unfold greedy_blocks
    rw [if_neg (by omega)]

theorem greedy_count_aligned (n : Nat) :
    ∀ fuel c, c < n → n - c ≤ 2 ^ 15 → n ≤ c + fuel →
      (∀ j, j ≤ 15 → 2 ^ j ≤ n - c → c % 2 ^ j = 0) →
      (greedy_blocks n c fuel).length = pc (n - c) := by
  intro fuel
  induction fuel with
  | zero => intro c h1 _ h3 _; omega
  | succ fuel ih =>
    intro c h1 h2 h3 halign
    have hm0 : n - c ≠ 0 := by omega
    have hle : 2 ^ Nat.log 2 (n - c) ≤ n - c := Nat.pow_log_le_self 2 hm0
    have hlt : n - c < 2 ^ (Nat.log 2 (n - c) + 1) :=
      Nat.lt_pow_succ_log_self (by norm_num) (n - c)
    have hpsucc : 2 ^ (Nat.log 2 (n - c) + 1) = 2 * 2 ^ Nat.log 2 (n - c) := by
      rw [pow_succ]; ring
    have hpow : 0 < 2 ^ Nat.log 2 (n - c) := Nat.two_pow_pos _
    have he15 : Nat.log 2 (n - c) ≤ 15 := by
      refine (Nat.pow_le_pow_iff_right (by norm_num : 1 < 2)).mp ?_
      omega
    have hbest : best_rank c n = Nat.log 2 (n - c) + 1 := by
      have hcond : c % 2 ^ Nat.log 2 (n - c) = 0 ∧ c + 2 ^ Nat.log 2 (n - c) ≤ n :=
        ⟨halign _ he15 (by omega), by omega⟩
      rcases Nat.lt_trichotomy (best_rank c n) (Nat.log 2 (n - c) + 1) with hlt2 | heq | hgt2
      · exact absurd hcond (best_rank_max c n _ hlt2 (by omega))
      · exact heq
      · exfalso
        have hbpos : 0 < best_rank c n := by omega
        have hspec := best_rank_spec c n hbpos
        have hge : 2 ^ (Nat.log 2 (n - c) + 1) ≤ 2 ^ (best_rank c n - 1) :=
          Nat.pow_le_pow_right (by norm_num) (by omega)
        omega
    unfold greedy_blocks
    rw [if_pos h1, if_pos (by omega), hbest, List.length_cons]
    have hred : Nat.log 2 (n - c) + 1 - 1 = Nat.log 2 (n - c) := by omega
    rw [hred]
    rcases Nat.lt_or_ge (c + 2 ^ Nat.log 2 (n - c)) n with hcc | hcc
    · have hcount := ih (c + 2 ^ Nat.log 2 (n - c)) hcc (by omega) (by omega)
        (fun j hj hjle => by
          have hjlt : 2 ^ j < 2 ^ Nat.log 2 (n - c) := by omega
          have hje : j < Nat.log 2 (n - c) :=
            (Nat.pow_lt_pow_iff_right (by norm_num : 1 < 2)).mp hjlt
          have d1 : c % 2 ^ j = 0 := halign j hj (by omega)
          have d2 : 2 ^ Nat.log 2 (n - c) % 2 ^ j = 0 :=
            Nat.mod_eq_zero_of_dvd (pow_dvd_pow 2 (le_of_lt hje))
          rw [Nat.add_mod, d1, d2]
          simp)
      rw [hcount]
      have hm' : n - (c + 2 ^ Nat.log 2 (n - c)) = (n - c) - 2 ^ Nat.log 2 (n - c) := by
        omega
      rw [hm']
      have := pc_pow_add (Nat.log 2 (n - c)) ((n - c) - 2 ^ Nat.log 2 (n - c)) (by omega)
      have hdecomp : 2 ^ Nat.log 2 (n - c) + ((n - c) - 2 ^ Nat.log 2 (n - c)) = n - c := by
        omega
      rw [hdecomp] at this
      omega
    · rw [greedy_blocks_nil n fuel _ hcc, List.length_nil]
      have hmeq : n - c = 2 ^ Nat.log 2 (n - c) := by omega
      rw [hmeq, pc_pow]

theorem greedy_length (n : Nat) (hn : n ≤ 65536) :
    (greedy_blocks n 0 n).length = if n = 65536 then 2 else pc n := by
  have h15 : (2 : Nat) ^ 15 = 32768 := by norm_num
  rcases Nat.eq_zero_or_pos n with h0 | h0
  · subst h0
    rw [if_neg (by omega)]
    show (List.length []) = pc 0
    rw [pc_zero]
    rfl
  by_cases h65 : n = 65536
  · subst h65
    rw [if_pos rfl]
    decide
  · rw [if_neg h65]
    rcases le_or_lt n (2 ^ 15) with hsmall | hbig
    · have := greedy_count_aligned n n 0 h0 (by omega) (by omega)
        (fun j _ _ => Nat.zero_mod _)
      simpa using this
    · have hb16 : best_rank 0 n = 16 := by
        show rank_scan 0 n MAXRANK = 16
        rw [MAXRANK_eq]
        unfold rank_scan
        rw [if_pos ⟨Nat.zero_mod _, by norm_num; omega⟩]
      obtain ⟨f, rfl⟩ : ∃ f, n = f + 1 := ⟨n - 1, by omega⟩
      conv_lhs => unfold greedy_blocks
      rw [if_pos (by omega), if_pos (by rw [hb16]; omega), hb16, List.length_cons]
      have hz : (0 : Nat) + 2 ^ (16 - 1) = 2 ^ 15 := by norm_num
      rw [hz]
      have hrest := greedy_count_aligned (f + 1) f (2 ^ 15) (by omega) (by omega) (by omega)
        (fun j hj _ => Nat.mod_eq_zero_of_dvd (pow_dvd_pow 2 hj))
      rw [hrest]
      have hpa := pc_pow_add 15 ((f + 1) - 2 ^ 15) (by omega)
      have hdecomp : 2 ^ 15 + ((f + 1) - 2 ^ 15) = f + 1 := by omega
      rw [hdecomp] at hpa
      omega

theorem clear_fl_get (fl : Nat → Option Nat) : ∀ m r, r < m → clear_fl fl m r = none := by
  intro m
  induction m with
  | zero => intro r h; omega
  | succ m ih =>
    intro r h
    unfold clear_fl
    by_cases hr : r = m
    · rw [hr, upd_same]
    · rw [upd_ne _ _ hr]
      exact ih r (by omega)

theorem zero_pr_lt (pr : Nat → Nat) : ∀ m i, i < m → zero_pr pr m i = 0 := by
  intro m
  induction m with
  | zero => intro i h; omega
  | succ m ih =>
    intro i h
    unfold zero_pr
    by_cases hi : i = m
    · rw [hi, upd_same]
    · rw [upd_ne _ _ hi]
      exact ih i (by omega)

theorem foldl_add_spec :
    ∀ (L : List (Nat × Nat)) (s : BuddyState) (W : Nat → List Nat),
      (∀ r, r ≤ 16 → ListAt s (s.free_lists r) (W r)) →
      (∀ p ∈ L, ∀ r, r ≤ 16 → p.1 ∉ W r) →
      (L.map Prod.fst).Nodup →
      (∀ p ∈ L, 1 ≤ p.2 ∧ p.2 ≤ 16) →
      (∀ r, r ≤ 16 →
        ListAt (L.foldl (fun t p => add_to_free_list t p.1 p.2) s)
          ((L.foldl (fun t p => add_to_free_list t p.1 p.2) s).free_lists r)
          (((L.filter (fun p => p.2 == r)).map Prod.fst).reverse ++ W r)) ∧
      (∀ p ∈ L, (L.foldl (fun t p => add_to_free_list t p.1 p.2) s).page_rank p.1 = p.2) ∧
      (∀ i, (∀ p ∈ L, p.1 ≠ i) →
        (L.foldl (fun t p => add_to_free_list t p.1 p.2) s).page_rank i = s.page_rank i) ∧
      (L.foldl (fun t p => add_to_free_list t p.1 p.2) s).total_pages = s.total_pages := by
  intro L
  induction L with
  | nil =>
    intro s W hW _ _ _
    exact ⟨fun r hr => by simpa using hW r hr, fun p hp => absurd hp (List.not_mem_nil p),
      fun i _ => rfl, rfl⟩
  | cons p L ih =>
    intro s W hW hfresh hnodup hranks
    rw [List.map_cons] at hnodup
    have hp1L : p.1 ∉ L.map Prod.fst := (List.nodup_cons.mp hnodup).1
    have hLnodup : (L.map Prod.fst).Nodup := (List.nodup_cons.mp hnodup).2
    have hW' : ∀ r, r ≤ 16 →
        ListAt (add_to_free_list s p.1 p.2)
          ((add_to_free_list s p.1 p.2).free_lists r)
          (if p.2 = r then p.1 :: W r else W r) := by
      intro r hr
      by_cases hpr : p.2 = r
      · rw [if_pos hpr]
        subst hpr
        rw [add_fl_same]
        refine ListAt.cons (add_nodes_next_self s p.1 p.2) ?_
        exact ListAt_congr (hW p.2 hr)
          (fun x hx => add_nodes_next_ne s p.1 p.2
            (fun hc => hfresh p (List.mem_cons_self p L) p.2 hr (hc ▸ hx)))
      · rw [if_neg hpr, add_fl_ne s p.1 p.2 (fun hc => hpr hc.symm)]
        exact ListAt_congr (hW r hr)
          (fun x hx => add_nodes_next_ne s p.1 p.2
            (fun hc => hfresh p (List.mem_cons_self p L) r hr (hc ▸ hx)))
    have hfresh' : ∀ q ∈ L, ∀ r, r ≤ 16 →
        q.1 ∉ (if p.2 = r then p.1 :: W r else W r) := by
      intro q hq r hr
      by_cases hpr : p.2 = r
      · rw [if_pos hpr]
        intro hmem
        rcases List.mem_cons.mp hmem with h1 | h2
        · exact hp1L (h1 ▸ List.mem_map_of_mem Prod.fst hq)
        · exact hfresh q (List.mem_cons_of_mem _ hq) r hr h2
      · rw [if_neg hpr]
        exact hfresh q (List.mem_cons_of_mem _ hq) r hr
    have hIH := ih (add_to_free_list s p.1 p.2)
      (fun r => if p.2 = r then p.1 :: W r else W r) hW' hfresh' hLnodup
      (fun q hq => hranks q (List.mem_cons_of_mem _ hq))
    rw [List.foldl_cons]
    refine ⟨fun r hr => ?_, fun q hq => ?_, fun i hi => ?_, ?_⟩
    · have hr1 : ListAt (L.foldl (fun t p => add_to_free_list t p.1 p.2)
          (add_to_free_list s p.1 p.2))
          ((L.foldl (fun t p => add_to_free_list t p.1 p.2)
            (add_to_free_list s p.1 p.2)).free_lists r)
          (((L.filter (fun p => p.2 == r)).map Prod.fst).reverse ++
            (if p.2 = r then p.1 :: W r else W r)) := hIH.1 r hr
      by_cases hpr : p.2 = r
      · rw [if_pos hpr] at hr1
        rw [List.filter_cons_of_pos (by simpa using hpr), List.map_cons,
          List.reverse_cons, List.append_assoc]
        simpa using hr1
      · rw [if_neg hpr] at hr1
        rw [List.filter_cons_of_neg (by simpa using hpr)]
        exact hr1
    · rcases List.mem_cons.mp hq with h1 | h2
      · subst h1
        rw [hIH.2.2.1 q.1 (fun q2 hq2 hc => hp1L (hc ▸ List.mem_map_of_mem Prod.fst hq2))]
        exact add_pr_same s q.1 q.2
      · exact hIH.2.1 q h2
    · rw [hIH.2.2.1 i (fun q hq2 => hi q (List.mem_cons_of_mem _ hq2))]
      exact add_pr_ne s p.1 p.2 (Ne.symm (hi p (List.mem_cons_self p L)))
    · rw [hIH.2.2.2]
      exact add_total s p.1 p.2

theorem greedy_mem_best (n : Nat) :
    ∀ fuel c p, p ∈ greedy_blocks n c fuel → p.2 = best_rank p.1 n := by
  intro fuel
  induction fuel with
  | zero => intro c p h; exact absurd h (List.not_mem_nil p)
  | succ fuel ih =>
    intro c p h
    unfold greedy_blocks at h
    by_cases hc : c < n
    · rw [if_pos hc] at h
      by_cases hb : 0 < best_rank c n
      · rw [if_pos hb] at h
        rcases List.mem_cons.mp h with h1 | h2
        · rw [h1]
        · exact ih _ p h2
      · rw [if_neg hb] at h
        exact ih _ p h
    · rw [if_neg hc] at h
      exact absurd h (List.not_mem_nil p)

/-- C6: `init_page(base, pgcount)` for any `pgcount` within the table
capacity and any prior pool state.  The cursor loop inserts exactly the
greedy block sequence `greedy_blocks pgcount 0 pgcount`, and: (1) the call
returns success; (2)-(3) these blocks tile `[0, pgcount)` exactly — they are
aligned power-of-two blocks with ranks in `[1, MAXRANK]`, pairwise disjoint,
with union exactly `[0, pgcount)`; (4) each block is maximal: no larger rank
is both aligned at its start and within `pgcount`; (5) the number of blocks
is minimal among all such partitions; (6) each rank's free list holds
exactly the greedy blocks of that rank (counted from the pristine cleared
lists, so the prior pool state is fully overwritten: conclusions (6)-(9)
determine the observable state from `pgcount` alone, for every prior `s`);
(7) each block start's metadata byte is its rank; (8) every other page
below `pgcount` has metadata byte 0; (9) the pool size is `pgcount`. -/
theorem c6_init_page_spec (s : BuddyState) (n : Nat) (hn : n ≤ 65536) :
    (init_page s n).1 = RetCode.ok ∧
    tiles n 0 (greedy_blocks n 0 n) ∧
    IsPartition n (greedy_blocks n 0 n) ∧
    (∀ p ∈ greedy_blocks n 0 n, ∀ r', p.2 < r' → r' ≤ 16 →
      ¬(p.1 % 2 ^ (r' - 1) = 0 ∧ p.1 + 2 ^ (r' - 1) ≤ n)) ∧
    (∀ l, IsPartition n l → (greedy_blocks n 0 n).length ≤ l.length) ∧
    (∀ r, 1 ≤ r → r ≤ 16 →
      ListAt (init_page s n).2 ((init_page s n).2.free_lists r)
        (((greedy_blocks n 0 n).filter (fun p => p.2 == r)).map Prod.fst).reverse) ∧
    (∀ p ∈ greedy_blocks n 0 n, (init_page s n).2.page_rank p.1 = p.2) ∧
    (∀ i, i < n → (∀ p ∈ greedy_blocks n 0 n, p.1 ≠ i) →
      (init_page s n).2.page_rank i = 0) ∧
    (init_page s n).2.total_pages = n := by
  have htiles : tiles n 0 (greedy_blocks n 0 n) :=
    greedy_tiles n n 0 (Nat.zero_le n) (by omega)
  have hbounds := tiles_mem_bounds n (greedy_blocks n 0 n) 0 htiles
  have hpart : IsPartition n (greedy_blocks n 0 n) := by
    refine ⟨fun p hp => ?_, tiles_pairwise n _ 0 htiles, ?_⟩
    · have := hbounds p hp
      exact ⟨this.2.1, this.2.2.1, this.2.2.2.1⟩
    · rw [tiles_union n _ 0 htiles, Finset.range_eq_Ico]
  -- the post-clear pre-loop state
  have hfold := foldl_add_spec (greedy_blocks n 0 n)
    { free_lists := clear_fl s.free_lists (MAXRANK + 1)
      nodes := s.nodes
      page_rank := zero_pr s.page_rank n
      total_pages := n }
    (fun _ => [])
    (fun r hr => by
      show ListAt _ (clear_fl s.free_lists (MAXRANK + 1) r) []
      rw [clear_fl_get s.free_lists (MAXRANK + 1) r (by rw [MAXRANK_eq]; omega)]
      exact ListAt.nil)
    (fun p _ r _ => List.not_mem_nil p.1)
    (tiles_starts_nodup n _ 0 htiles)
    (fun p hp => ⟨(hbounds p hp).2.1, (hbounds p hp).2.2.1⟩)
  have hrun : (init_page s n).2 =
      (greedy_blocks n 0 n).foldl (fun t p => add_to_free_list t p.1 p.2)
        { free_lists := clear_fl s.free_lists (MAXRANK + 1)
          nodes := s.nodes
          page_rank := zero_pr s.page_rank n
          total_pages := n } := by
    show init_loop n _ 0 n = _
    rw [init_loop_eq_foldl]
  refine ⟨rfl, htiles, hpart, ?_, ?_, ?_, ?_, ?_, ?_⟩
  · intro p hp r' hr1 hr2
    have hbest := greedy_mem_best n n 0 p hp
    have hj : r' - 1 + 1 = r' := by omega
    have := best_rank_max p.1 n (r' - 1) (by omega) (by omega)
    exact this
  · intro l hl
    rw [greedy_length n hn]
    by_cases h65 : n = 65536
    · rw [if_pos h65]
      have := partition_length_ge_cap hl
      have h15 : (2 : Nat) ^ 15 = 32768 := by norm_num
      subst h65
      omega
    · rw [if_neg h65]
      exact partition_length_ge_pc hl
  · intro r h1 h16
    have := hfold.1 r h16
    rw [hrun]
    simpa using this
  · intro p hp
    rw [hrun]
    exact hfold.2.1 p hp
  · intro i hi hnot
    rw [hrun, hfold.2.2.1 i (fun p hp => hnot p hp)]
    exact zero_pr_lt s.page_rank n i hi
  · rw [hrun, hfold.2.2.2]

/-- C6 witness: a 10-page pool is partitioned into one rank-4 block (8 pages
at index 0) and one rank-2 block (2 pages at index 8), exactly matching the
claim's example, and those blocks sit on the rank-4 and rank-2 free lists of
the initialised state with their metadata bytes set. -/
theorem c6_witness :
    greedy_blocks 10 0 10 = [(0, 4), (8, 2)] ∧
    (init_page blank 10).1 = RetCode.ok ∧
    (init_page blank 10).2.free_lists 4 = some 0 ∧
    (init_page blank 10).2.free_lists 2 = some 8 ∧
    (init_page blank 10).2.page_rank 0 = 4 ∧
    (init_page blank 10).2.page_rank 8 = 2 ∧
    (init_page blank 10).2.page_rank 1 = 0 ∧
    IsPartition 10 [(0, 4), (8, 2)] := by
  have h := c6_init_page_spec blank 10 (by omega)
  have hg : greedy_blocks 10 0 10 = [(0, 4), (8, 2)] := by decide
  refine ⟨hg, h.1, by decide, by decide, ?_, ?_, ?_, hg ▸ h.2.2.1⟩
  · exact h.2.2.2.2.2.2.1 (0, 4) (by decide)
  · exact h.2.2.2.2.2.2.1 (8, 2) (by decide)
  · exact h.2.2.2.2.2.2.2.1 1 (by decide) (by decide)
